import Mathlib

/-!
Verification of the ordered adjacency-list graph library (`src/adjlist.py`)
and its four graph algorithms (`src/algorithm.py`).

The Python classes `AdjacencyList` and `Edge` are singly linked lists kept in
ascending order.  We embed them as Lean lists: an `Edge` chain becomes a
`List (α × ℕ)` of `(destination, weight)` pairs, an `AdjacencyList` chain
becomes a `List (Node α)`.  Node names come from an arbitrary linear order
`α` (the Python code only compares them with `==`, `<` and `>`); concrete
test graphs use `Char` names.  Python numeric values that may be `math.inf`
are modelled as `WithTop ℕ` (`⊤` is `inf`); edge weights as stored are `ℕ`.

Each Lean function mirrors one Python method, case for case.  The algorithms
(`dijkstra`, `prim`) mutate per-node scratch `info` fields through aliased
object references; here the graph is threaded explicitly and a node's info is
updated through its name, which coincides with the Python aliasing whenever
node names are distinct (the structural invariant of the library).
-/

namespace Labb3

/-- Python numbers that may be `math.inf`: `⊤` models `inf`. -/
abbrev Wt : Type := WithTop ℕ

/-- One node of the Python `AdjacencyList`: its `_name`, its `_info` scratch
field (`None`, or a pair `[distance, previous]` as used by Dijkstra/Prim),
and its `_edges` list of `(dst, weight)` pairs. -/
structure Node (α : Type) where
  name : α
  info : Option (Wt × Option α)
  edges : List (α × ℕ)
deriving DecidableEq

/-- A whole adjacency list (the Python `AdjacencyList` chain, head to tail). -/
abbrev Graph (α : Type) : Type := List (Node α)

namespace EdgeL

variable {α : Type} [LinearOrder α]

/-- `Edge.add`: insert an edge towards `dst` in ascending order; if an edge
towards `dst` exists, overwrite its weight. -/
def add : List (α × ℕ) → α → ℕ → List (α × ℕ)
  | [], dst, w => [(dst, w)]
  | (d, wt) :: tl, dst, w =>
    if dst = d then (d, w) :: tl
    else if dst < d then (dst, w) :: (d, wt) :: tl
    else (d, wt) :: add tl dst w

/-- `Edge.delete`: delete the edge towards `dst` if it exists. -/
def delete : List (α × ℕ) → α → List (α × ℕ)
  | [], _ => []
  | (d, wt) :: tl, dst => if dst = d then tl else (d, wt) :: delete tl dst

/-- `Edge.find`: is there an edge towards `dst`? -/
def find : List (α × ℕ) → α → Bool
  | [], _ => false
  | (d, _) :: tl, dst => if dst = d then true else find tl dst

/-- `Edge.cardinality`: number of edges in the chain. -/
def cardinality : List (α × ℕ) → ℕ
  | [] => 0
  | _ :: tl => cardinality tl + 1

end EdgeL

namespace AdjList

variable {α : Type} [LinearOrder α]

/-- `AdjacencyList.add_node`.  The Python cases are: empty list → new node;
`name < self.name()` → prepend a new node; otherwise recurse into the tail.
There is no `name == self.name()` case, so re-adding an existing name walks
past the existing node and inserts a second one. -/
def add_node : Graph α → α → Option (Wt × Option α) → Graph α
  | [], name, info => [⟨name, info, []⟩]
  | n :: tl, name, info =>
    if name < n.name then ⟨name, info, []⟩ :: n :: tl
    else n :: add_node tl name info

/-- `AdjacencyList.delete_node`: drop the matching node, recurse while
`name > self.name()`, and return the list unchanged once `name` is smaller. -/
def delete_node : Graph α → α → Graph α
  | [], _ => []
  | n :: tl, name =>
    if name = n.name then tl
    else if name > n.name then n :: delete_node tl name
    else n :: tl

/-- `AdjacencyList.find_node`. -/
def find_node : Graph α → α → Bool
  | [], _ => false
  | n :: tl, name => if name = n.name then true else find_node tl name

/-- Result of the Python `get_node` helper: on a miss it returns the integer
`0` (a non-semantic sentinel), on a hit the node object itself. -/
inductive Lookup (α : Type) where
  | sentinel (v : ℕ)
  | node (n : Node α)
deriving DecidableEq

/-- `AdjacencyList.get_node`: first node named `name`, or the sentinel `0`. -/
def get_node : Graph α → α → Lookup α
  | [], _ => .sentinel 0
  | n :: tl, name => if name = n.name then .node n else get_node tl name

/-- `AdjacencyList.node_cardinality`. -/
def node_cardinality : Graph α → ℕ
  | [] => 0
  | _ :: tl => node_cardinality tl + 1

/-- `AdjacencyList._add_edge` (precondition: `src` and `dst` are members). -/
def addEdgeAux : Graph α → α → α → ℕ → Graph α
  | [], _, _, _ => []
  | n :: tl, src, dst, w =>
    if src = n.name then { n with edges := EdgeL.add n.edges dst w } :: tl
    else if src > n.name then n :: addEdgeAux tl src dst w
    else n :: tl

/-- `AdjacencyList.add_edge`: if `src` or `dst` is not a member, return the
adjacency list unchanged; otherwise insert/update through `_add_edge`. -/
def add_edge (g : Graph α) (src dst : α) (w : ℕ) : Graph α :=
  if !find_node g src || !find_node g dst then g else addEdgeAux g src dst w

/-- `AdjacencyList.delete_edges`: in every node, delete the edge towards
`name`. -/
def delete_edges : Graph α → α → Graph α
  | [], _ => []
  | n :: tl, name => { n with edges := EdgeL.delete n.edges name } :: delete_edges tl name

/-- `AdjacencyList.find_edge`. -/
def find_edge : Graph α → α → α → Bool
  | [], _, _ => false
  | n :: tl, src, dst => if src = n.name then EdgeL.find n.edges dst else find_edge tl src dst

/-- `AdjacencyList.list_nodes`: the node names in list order. -/
def list_nodes : Graph α → List α
  | [] => []
  | n :: tl => n.name :: list_nodes tl

/-- Matrices as the Python lists of lists of numbers; `⊤` is `inf`. -/
abbrev Mat : Type := List (List Wt)

/-- Read `matrix[i][j]`; out-of-range reads default to `⊤` (the Python code
only indexes in range). -/
def getCell (m : Mat) (i j : ℕ) : Wt := (m.getD i []).getD j ⊤

/-- Write `matrix[i][j] = v`; out-of-range writes are dropped (the Python code
only indexes in range). -/
def setCell (m : Mat) (i j : ℕ) (v : Wt) : Mat := m.set i ((m.getD i []).set j v)

/-- `AdjacencyList.find_dst_index`: position of node `dst` in the list.
Precondition (from the Python docstring): `dst` is a member; on an empty list
the Python code raises, here the value is the irrelevant `0`. -/
def find_dst_index : Graph α → α → ℕ
  | [], _ => 0
  | n :: tl, dst => if dst = n.name then 0 else find_dst_index tl dst + 1

/-- Inner loop of `add_list_to_matrix`: write one node's edges into row `i`,
the column of an edge being `find_dst_index` of its destination in the full
list `g`. -/
def fillEdges (g : Graph α) (i : ℕ) : List (α × ℕ) → Mat → Mat
  | [], m => m
  | (dst, w) :: tl, m => fillEdges g i tl (setCell m i (find_dst_index g dst) (w : ℕ∞))

/-- Outer loop of `add_list_to_matrix`: rows follow the nodes in list order. -/
def fillAll (g : Graph α) : Graph α → ℕ → Mat → Mat
  | [], _, m => m
  | n :: tl, i, m => fillAll g tl (i + 1) (fillEdges g i n.edges m)

/-- `AdjacencyList.add_list_to_matrix`. -/
def add_list_to_matrix (g : Graph α) (m : Mat) : Mat := fillAll g g 0 m

/-- The `[[inf] * n for i in range(n)]` starting matrix. -/
def infMatrix (n : ℕ) : Mat := List.replicate n (List.replicate n (⊤ : Wt))

/-- `AdjacencyList.adjacency_matrix` (the spec's `to_matrix()`): `[[]]` on an
empty list, otherwise the `n × n` weight matrix. -/
def adjacency_matrix (g : Graph α) : Mat :=
  if g.isEmpty then [[]]
  else add_list_to_matrix g (infMatrix (node_cardinality g))

/-- The library's structural invariant: node names strictly ascending (hence
distinct).  Every graph reachable through the intended API keeps this. -/
def WF (g : Graph α) : Prop := (list_nodes g).Sorted (· < ·)

/-- Per-node edge invariant: each node's edge destinations strictly ascending
(hence distinct). -/
def WFE (g : Graph α) : Prop := ∀ n ∈ g, (n.edges.map Prod.fst).Sorted (· < ·)

/-- Edge closure: every edge points at a member node.  Graphs violating this
make the Python algorithms raise (`get_node` returns the `0` sentinel and the
caller dereferences it), so the algorithm claims assume it. -/
def Closed (g : Graph α) : Prop := ∀ n ∈ g, ∀ e ∈ n.edges, find_node g e.1 = true

instance (g : Graph α) : Decidable (WF g) := by unfold WF; exact List.decidableSorted _
instance (g : Graph α) : Decidable (WFE g) := by unfold WFE; infer_instance
instance (g : Graph α) : Decidable (Closed g) := by unfold Closed; infer_instance

end AdjList

namespace Algo

open AdjList

variable {α : Type} [LinearOrder α]

/-- Scratch info of the node named `x`, read the way the Python algorithms do:
`adjlist.get_node(x).info()`.  If the node is missing, Python reaches the `0`
sentinel and raises on `.info()`; the default `(⊤, none)` here is never read
under the claims' preconditions.  An unset (`None`) info likewise defaults. -/
def infoOf (g : Graph α) (x : α) : Wt × Option α :=
  match get_node g x with
  | .node n => n.info.getD (⊤, none)
  | .sentinel _ => (⊤, none)

/-- `node.set_info(...)` on the first node named `x` (Python mutates the node
object in place; with distinct names this is the same state change). -/
def setInfo (g : Graph α) (x : α) (i : Wt × Option α) : Graph α :=
  match g with
  | [] => []
  | n :: tl => if x = n.name then { n with info := some i } :: tl else n :: setInfo tl x i

/-- The edge list of the node named `x` (`u.list_edges_object()` reads the
node's `_edges` chain; the chain is never mutated by the algorithms). -/
def edgesOf (g : Graph α) (x : α) : List (α × ℕ) :=
  match get_node g x with
  | .node n => n.edges
  | .sentinel _ => []

/-- `init_single_source`: set every node's info to `[inf, None]`, the start
node's to `[0, None]`. -/
def init_single_source (g : Graph α) (start : α) : Graph α :=
  g.map fun n =>
    { n with info := some (if n.name = start then ((0 : Wt), (none : Option α))
                           else ((⊤ : Wt), (none : Option α))) }

/-- The scan inside `get_min_node`: `i` is the index of the next element of
`q`, `best`/`bv` the index and distance of the current minimum; only a
strictly smaller distance replaces it (first occurrence wins ties). -/
def minIndexGo (g : Graph α) : List α → ℕ → ℕ → Wt → ℕ
  | [], _, best, _ => best
  | x :: xs, i, best, bv =>
    if (infoOf g x).1 < bv then minIndexGo g xs (i + 1) i (infoOf g x).1
    else minIndexGo g xs (i + 1) best bv

/-- Index chosen by `get_min_node`'s linear scan. -/
def minIndex (g : Graph α) : List α → ℕ
  | [] => 0
  | x :: xs => minIndexGo g xs 1 0 (infoOf g x).1

/-- `arr.pop(i)`: remove and return the element at index `i`. -/
def popIdx {β : Type} : List β → ℕ → Option (β × List β)
  | [], _ => none
  | x :: xs, 0 => some (x, xs)
  | x :: xs, i + 1 => (popIdx xs i).map fun p => (p.1, x :: p.2)

/-- `get_min_node`: pop the queue element with the smallest scratch distance
(`none` exactly when the queue is empty). -/
def get_min_node (g : Graph α) (q : List α) : Option (α × List α) :=
  popIdx q (minIndex g q)

theorem popIdx_length {β : Type} {l : List β} {i : ℕ} {x : β} {l2 : List β}
    (h : popIdx l i = some (x, l2)) : l2.length + 1 = l.length := by
  induction l generalizing i x l2 with
  | nil => simp [popIdx] at h
  | cons a tl ih =>
    match i with
    | 0 => simp only [popIdx, Option.some.injEq, Prod.mk.injEq] at h; simp [← h.2]
    | i + 1 =>
      simp only [popIdx, Option.map_eq_some'] at h
      obtain ⟨⟨y, l3⟩, h3, h4⟩ := h
      cases h4
      simpa using ih h3

theorem get_min_node_length {g : Graph α} {q : List α} {u : α} {q2 : List α}
    (h : get_min_node g q = some (u, q2)) : q2.length + 1 = q.length :=
  popIdx_length h

/-- `relax(u, v, weight)`: if the path through `u` is strictly shorter, set
`v`'s scratch info to `[u.info()[0] + weight, u.name()]`. -/
def relax (g : Graph α) (u v : α) (w : ℕ) : Graph α :=
  if (infoOf g v).1 > (infoOf g u).1 + (w : Wt) then
    setInfo g v ((infoOf g u).1 + (w : Wt), some u)
  else g

/-- The edge scan of one Dijkstra iteration: `for edge in u.list_edges_object():
relax(u, adjlist.get_node(edge.dst()), edge.weight())`. -/
def relaxList (g : Graph α) (u : α) : List (α × ℕ) → Graph α
  | [] => g
  | (dst, w) :: tl => relaxList (relax g u dst w) u tl

/-- Dijkstra's main loop: pop the minimum node, append it to `s`, relax its
out-edges; stop when the queue is empty.  The `while len(q) > 0` loop removes
one queue element per iteration, so running it with `fuel = q.length` is the
exact loop; the fuel-exhausted branch is unreachable. -/
def dijkstraLoop : ℕ → Graph α → List α → List α → Graph α × List α
  | 0, g, _, s => (g, s)
  | fuel + 1, g, q, s =>
    match get_min_node g q with
    | none => (g, s)
    | some (u, q2) => dijkstraLoop fuel (relaxList g u (edgesOf g u)) q2 (s ++ [u])

/-- The write-out loop of `get_output`: for the `i`:th node (in sorted order)
write `None` into both arrays if its scratch distance is `0`, otherwise the
scratch distance and predecessor. -/
def fillOut (g : Graph α) : List α → ℕ → List (Option Wt) → List (Option α) →
    List (Option Wt) × List (Option α)
  | [], _, d, e => (d, e)
  | x :: tl, i, d, e =>
    fillOut g tl (i + 1)
      (d.set i (if (infoOf g x).1 = 0 then none else some (infoOf g x).1))
      (e.set i (if (infoOf g x).1 = 0 then none else (infoOf g x).2))

/-- `get_output(nodes, distance, previous)`: sort the completed nodes by name
and fill the two preallocated arrays. -/
def get_output (g : Graph α) (s : List α) (d : List (Option Wt)) (e : List (Option α)) :
    List (Option Wt) × List (Option α) :=
  fillOut g (List.insertionSort (· ≤ ·) s) 0 d e

/-- `dijkstra(adjlist, start_node)`. -/
def dijkstra (g : Graph α) (start : α) : List (Option Wt) × List (Option α) :=
  let n := node_cardinality g
  let g1 := init_single_source g start
  let q := list_nodes g1
  let r := dijkstraLoop q.length g1 q []
  get_output r.1 r.2 (List.replicate n none) (List.replicate n none)

/-- Prim's relaxation of one scanned edge `u → dst` of weight `w`: fire
exactly when `dst` is still in the working set `q2` and `w` is strictly below
its scratch value, writing `[w, u]` (no addition of `u`'s own cost). -/
def primRelaxStep (g : Graph α) (q2 : List α) (u dst : α) (w : ℕ) : Graph α :=
  if dst ∈ q2 ∧ (w : Wt) < (infoOf g dst).1 then setInfo g dst ((w : Wt), some u) else g

/-- The edge scan of one Prim iteration. -/
def primRelaxList (g : Graph α) (q2 : List α) (u : α) : List (α × ℕ) → Graph α
  | [] => g
  | (dst, w) :: tl => primRelaxList (primRelaxStep g q2 u dst w) q2 u tl

/-- Prim's main loop (the membership test `v in q` uses the queue as it is
after popping `u`); fuel as in `dijkstraLoop`. -/
def primLoop : ℕ → Graph α → List α → List α → Graph α × List α
  | 0, g, _, s => (g, s)
  | fuel + 1, g, q, s =>
    match get_min_node g q with
    | none => (g, s)
    | some (u, q2) => primLoop fuel (primRelaxList g q2 u (edgesOf g u)) q2 (s ++ [u])

/-- `prim(adjlist, start_node)`. -/
def prim (g : Graph α) (start : α) : List (Option Wt) × List (Option α) :=
  let n := node_cardinality g
  let g1 := init_single_source g start
  let q := list_nodes g1
  let r := primLoop q.length g1 q []
  get_output r.1 r.2 (List.replicate n none) (List.replicate n none)

/-- One assignment `matrix[i][j] = 0 if i == j and matrix[i][j] == inf else
min(matrix[i][j], matrix[i][k] + matrix[k][j])`. -/
def floydStep (m : Mat) (k i j : ℕ) : Mat :=
  setCell m i j
    (if i = j ∧ getCell m i j = ⊤ then 0
     else min (getCell m i j) (getCell m i k + getCell m k j))

/-- `floyd(adjlist)`: build the weight matrix, then run the triple loop. -/
def floyd (g : Graph α) : Mat :=
  let n := node_cardinality g
  let m0 := add_list_to_matrix g (infMatrix n)
  (List.range n).foldl (fun m k =>
    (List.range n).foldl (fun m i =>
      (List.range n).foldl (fun m j => floydStep m k i j) m) m) m0

/-- `warshall(adjlist)`: the Floyd matrix with every `inf` cell replaced by
`False` and every other cell by `True` (the Python double loop visits each
cell exactly once, i.e. an elementwise map). -/
def warshall (g : Graph α) : List (List Bool) :=
  (floyd g).map fun row => row.map fun c => if c = ⊤ then false else true

end Algo

open AdjList Algo

/-! ### Concrete test graphs

All are built through the public mutation API, so they are states the library
itself produces. -/

/-- The spec's Dijkstra scenario: nodes `{a,b,c}`, directed edges
`a→b(1)`, `a→c(2)`, `b→c(2)`. -/
def gd : Graph Char :=
  add_edge (add_edge (add_edge
    (add_node (add_node (add_node [] 'a' none) 'b' none) 'c' none)
    'a' 'b' 1) 'a' 'c' 2) 'b' 'c' 2

/-- The spec's Prim scenario: undirected graph `{a,b,c}` with edges
`a↔b(1)`, `a↔c(3)`, `b↔c(1)`. -/
def gp : Graph Char :=
  add_edge (add_edge (add_edge (add_edge (add_edge (add_edge
    (add_node (add_node (add_node [] 'a' none) 'b' none) 'c' none)
    'a' 'b' 1) 'b' 'a' 1) 'a' 'c' 3) 'c' 'a' 3) 'b' 'c' 1) 'c' 'b' 1

/-- Two nodes with one zero-weight edge `a→b(0)`. -/
def gz : Graph Char :=
  add_edge (add_node (add_node [] 'a' none) 'b' none) 'a' 'b' 0

/-- The spec's Floyd/Warshall scenario: two nodes, single edge `a→b(5)`. -/
def gf : Graph Char :=
  add_edge (add_node (add_node [] 'a' none) 'b' none) 'a' 'b' 5

/-- Self-loop `a→a(5)` plus the two-cycle `a→b(1)`, `b→a(1)`. -/
def gx : Graph Char :=
  add_edge (add_edge (add_edge
    (add_node (add_node [] 'a' none) 'b' none)
    'a' 'a' 5) 'a' 'b' 1) 'b' 'a' 1

/-! ### Basic structural lemmas -/

namespace AdjList

variable {α : Type} [LinearOrder α]

omit [LinearOrder α] in
theorem list_nodes_eq_map (g : Graph α) : list_nodes g = g.map Node.name := by
  induction g with
  | nil => rfl
  | cons n tl ih => simp [list_nodes, ih]

theorem find_node_iff {g : Graph α} {x : α} :
    find_node g x = true ↔ ∃ n ∈ g, n.name = x := by
  induction g with
  | nil => simp [find_node]
  | cons n tl ih =>
    simp only [find_node]
    by_cases h : x = n.name
    · subst h
      simp only [if_pos rfl]
      exact iff_of_true rfl ⟨n, List.mem_cons_self n tl, rfl⟩
    · simp only [if_neg h, ih, List.mem_cons]
      constructor
      · rintro ⟨m, hm, rfl⟩
        exact ⟨m, Or.inr hm, rfl⟩
      · rintro ⟨m, hm | hm, rfl⟩
        · exact absurd (congrArg Node.name hm) h
        · exact ⟨m, hm, rfl⟩

theorem find_node_eq_false_iff {g : Graph α} {x : α} :
    find_node g x = false ↔ ∀ n ∈ g, n.name ≠ x := by
  rw [← Bool.not_eq_true, find_node_iff]
  push_neg
  rfl

theorem get_node_eq_sentinel {g : Graph α} {x : α} (h : find_node g x = false) :
    get_node g x = Lookup.sentinel 0 := by
  induction g with
  | nil => rfl
  | cons n tl ih =>
    simp only [find_node] at h
    rcases ite_eq_iff.mp h with ⟨_, h1⟩ | ⟨hne, h2⟩
    · cases h1
    · simpa [get_node, hne] using ih h2

theorem get_node_eq_node {g : Graph α} {x : α} (h : find_node g x = true) :
    ∃ n ∈ g, n.name = x ∧ get_node g x = Lookup.node n := by
  induction g with
  | nil => simp [find_node] at h
  | cons n tl ih =>
    by_cases hx : x = n.name
    · exact ⟨n, List.mem_cons_self n tl, hx.symm, by simp [get_node, hx]⟩
    · simp only [find_node, if_neg hx] at h
      obtain ⟨m, hm, hname, hget⟩ := ih h
      exact ⟨m, List.mem_cons_of_mem n hm, hname, by simpa [get_node, hx] using hget⟩

omit [LinearOrder α] in
theorem node_cardinality_eq_length (g : Graph α) : node_cardinality g = g.length := by
  induction g with
  | nil => rfl
  | cons n tl ih => simp [node_cardinality, ih]

end AdjList

/-! ### C1: `add_node` on an existing name -/

/-- **C1** (code bug).  The spec (and `add_node`'s own docstring) promise that
re-adding an existing name overwrites its info only, keeping `list_nodes()`
strictly ascending, `node_count()` equal to the number of distinct names, and
making `add_node` idempotent.  The code has no `name == self.name()` case, so
a second `add_node 'a'` walks past the existing node and inserts a duplicate:
afterwards `list_nodes` is `['a','a']` (not strictly ascending), the node
count is `2` (one distinct name), and repeating `add_node` with identical
arguments changes the structure again. -/
theorem c1_add_node_inserts_duplicate :
    list_nodes (add_node (add_node ([] : Graph Char) 'a' (some (3, none)))
        'a' (some (5, none))) = ['a', 'a'] ∧
    node_cardinality (add_node (add_node ([] : Graph Char) 'a' (some (3, none)))
        'a' (some (5, none))) = 2 ∧
    add_node (add_node ([] : Graph Char) 'a' (some (3, none))) 'a' (some (3, none)) ≠
      add_node ([] : Graph Char) 'a' (some (3, none)) := by
  decide

/-! ### C4: `add_edge` with a missing endpoint is a no-op -/

/-- **C4**.  If `src` or `dst` is not a member node, `add_edge` returns the
graph unchanged: node set, infos and all edge sets are untouched. -/
theorem c4_add_edge_missing_endpoint_noop {α : Type} [LinearOrder α]
    (g : Graph α) (src dst : α) (w : ℕ)
    (h : find_node g src = false ∨ find_node g dst = false) :
    add_edge g src dst w = g := by
  unfold add_edge
  rcases h with h | h <;> simp [h]

/-- Witness for C4 on a concrete graph: `'z'` is not a node of `gd`. -/
theorem c4_witness :
    (find_node gd 'z' = false ∨ find_node gd 'b' = false) ∧
      add_edge gd 'z' 'b' 7 = gd :=
  ⟨Or.inl (by decide), c4_add_edge_missing_endpoint_noop gd 'z' 'b' 7 (Or.inl (by decide))⟩

/-! ### C8: `get_node` returns the `0` sentinel on a miss -/

/-- **C8**.  For a non-member name, `get_node` returns the non-semantic
sentinel `0` rather than an absent-value indicator; for a member name it
returns the node itself (the first — under the library invariant, unique —
node with that name). -/
theorem c8_get_node_sentinel {α : Type} [LinearOrder α] (g : Graph α) (x : α) :
    (find_node g x = false → get_node g x = Lookup.sentinel 0) ∧
    (find_node g x = true → ∃ n ∈ g, n.name = x ∧ get_node g x = Lookup.node n) :=
  ⟨AdjList.get_node_eq_sentinel, AdjList.get_node_eq_node⟩

/-- Witness for C8: in `gd`, `'z'` misses (sentinel `0`), `'b'` hits. -/
theorem c8_witness :
    get_node gd 'z' = Lookup.sentinel 0 ∧
      ∃ n ∈ gd, n.name = 'b' ∧ get_node gd 'b' = Lookup.node n :=
  ⟨(c8_get_node_sentinel gd 'z').1 (by decide),
   (c8_get_node_sentinel gd 'b').2 (by decide)⟩

/-! ### C6: `delete_node` and `delete_edges` frame effects -/

namespace AdjList

variable {α : Type} [LinearOrder α]

theorem delete_node_eq_filter {g : Graph α} (x : α) (hwf : WF g) :
    delete_node g x = g.filter (fun n => n.name != x) := by
  induction g with
  | nil => rfl
  | cons n tl ih =>
    rw [WF, list_nodes_eq_map, List.map_cons, List.sorted_cons] at hwf
    obtain ⟨hlt, hs⟩ := hwf
    have hlt2 : ∀ m ∈ tl, n.name < m.name := fun m hm =>
      hlt m.name (List.mem_map_of_mem Node.name hm)
    by_cases h1 : x = n.name
    · subst h1
      simp only [delete_node, if_pos rfl, List.filter_cons, bne_self_eq_false,
        Bool.false_eq_true, if_false]
      exact (List.filter_eq_self.mpr fun m hm =>
        bne_iff_ne.mpr (ne_of_gt (hlt2 m hm))).symm
    · by_cases h2 : x > n.name
      · simp only [delete_node, if_neg h1, if_pos h2, List.filter_cons,
          bne_iff_ne.mpr (ne_of_lt h2), if_true]
        rw [ih (by rw [WF, list_nodes_eq_map]; exact hs)]
      · have hx : x < n.name := lt_of_le_of_ne (not_lt.mp h2) h1
        simp only [delete_node, if_neg h1, if_neg h2]
        refine (List.filter_eq_self.mpr fun m hm => bne_iff_ne.mpr ?_).symm
        rcases List.mem_cons.mp hm with rfl | hm
        · exact ne_of_gt hx
        · exact ne_of_gt (hx.trans (hlt2 m hm))

theorem EdgeL.delete_eq_filter {l : List (α × ℕ)} (x : α)
    (hnd : (l.map Prod.fst).Nodup) :
    EdgeL.delete l x = l.filter (fun e => e.1 != x) := by
  induction l with
  | nil => rfl
  | cons e tl ih =>
    obtain ⟨d, w⟩ := e
    simp only [List.map_cons, List.nodup_cons] at hnd
    obtain ⟨hni, hnd⟩ := hnd
    by_cases h : x = d
    · subst h
      simp only [EdgeL.delete, if_pos rfl, List.filter_cons, bne_self_eq_false,
        Bool.false_eq_true, if_false]
      refine (List.filter_eq_self.mpr fun f hf => bne_iff_ne.mpr fun hc => ?_).symm
      exact hni (hc ▸ List.mem_map_of_mem Prod.fst hf)
    · simp only [EdgeL.delete, if_neg h, List.filter_cons,
        bne_iff_ne.mpr (Ne.symm h), if_true, ih hnd]

theorem delete_edges_eq_map {g : Graph α} (x : α) (hwfe : WFE g) :
    delete_edges g x =
      g.map fun n => { n with edges := n.edges.filter fun e => e.1 != x } := by
  induction g with
  | nil => rfl
  | cons n tl ih =>
    have h1 : (n.edges.map Prod.fst).Nodup :=
      (hwfe n (List.mem_cons_self n tl)).imp fun h => ne_of_lt h
    simp only [delete_edges, List.map_cons, EdgeL.delete_eq_filter x h1]
    rw [ih fun m hm => hwfe m (List.mem_cons_of_mem n hm)]

end AdjList

/-- **C6**.  Under the library invariant (ascending node names, ascending edge
destinations), `delete_node x` removes exactly the node named `x`: the result
is the original list with only that node filtered out, every other node kept
with its info and edges (so edges pointing at `x` remain), and `find_node x`
is `false` afterwards.  A subsequent `delete_edges x` then removes, in every
node, exactly the edges whose destination is `x`, keeping all others. -/
theorem c6_delete_node_then_delete_edges {α : Type} [LinearOrder α]
    (g : Graph α) (x : α) (hwf : WF g) (hwfe : WFE g) (hm : find_node g x = true) :
    delete_node g x = g.filter (fun n => n.name != x) ∧
    find_node (delete_node g x) x = false ∧
    delete_edges (delete_node g x) x =
      (delete_node g x).map (fun n =>
        { n with edges := n.edges.filter fun e => e.1 != x }) := by
  have hfil := AdjList.delete_node_eq_filter x hwf
  refine ⟨hfil, ?_, ?_⟩
  · rw [hfil, AdjList.find_node_eq_false_iff]
    intro n hn
    exact bne_iff_ne.mp (List.mem_filter.mp hn).2
  · refine AdjList.delete_edges_eq_map x fun n hn => ?_
    rw [hfil] at hn
    exact hwfe n (List.mem_of_mem_filter hn)

/-- Witness for C6: delete node `'b'` from the Dijkstra scenario graph `gd`
(which has an edge `a→b` that must survive `delete_node`). -/
theorem c6_witness :
    (WF gd ∧ WFE gd ∧ find_node gd 'b' = true) ∧
    (delete_node gd 'b' = gd.filter (fun n => n.name != 'b') ∧
     find_node (delete_node gd 'b') 'b' = false ∧
     delete_edges (delete_node gd 'b') 'b' =
       (delete_node gd 'b').map (fun n =>
         { n with edges := n.edges.filter fun e => e.1 != 'b' })) :=
  ⟨⟨by decide, by decide, by decide⟩,
   c6_delete_node_then_delete_edges gd 'b' (by decide) (by decide) (by decide)⟩

/-! ### C9: `adjacency_matrix` on the empty graph -/

/-- **C9**.  On the empty graph `adjacency_matrix` returns `[[]]`, the
degenerate matrix with no weight cells (every row is empty). -/
theorem c9_empty_matrix :
    adjacency_matrix ([] : Graph Char) = [[]] ∧
    ∀ row ∈ adjacency_matrix ([] : Graph Char), row = [] := by
  decide

/-! ### Scratch-state lemmas for Dijkstra and Prim -/

namespace Algo

variable {α : Type} [LinearOrder α]

theorem infoOf_setInfo_self {g : Graph α} {x : α} (h : find_node g x = true)
    (i : Wt × Option α) : infoOf (setInfo g x i) x = i := by
  induction g with
  | nil => simp [find_node] at h
  | cons n tl ih =>
    by_cases hx : x = n.name
    · simp [setInfo, infoOf, get_node, hx]
    · simp only [find_node, if_neg hx] at h
      simpa [setInfo, infoOf, get_node, hx] using ih h

theorem infoOf_setInfo_ne {g : Graph α} {x y : α} (h : y ≠ x)
    (i : Wt × Option α) : infoOf (setInfo g x i) y = infoOf g y := by
  induction g with
  | nil => rfl
  | cons n tl ih =>
    by_cases hx : x = n.name
    · have hy : y ≠ n.name := hx ▸ h
      simp [setInfo, infoOf, get_node, hx, hy]
    · by_cases hy : y = n.name
      · simp [setInfo, infoOf, get_node, hx, hy]
      · simpa [setInfo, infoOf, get_node, hx, hy] using ih

theorem list_nodes_setInfo (g : Graph α) (x : α) (i : Wt × Option α) :
    list_nodes (setInfo g x i) = list_nodes g := by
  induction g with
  | nil => rfl
  | cons n tl ih =>
    by_cases hx : x = n.name <;> simp [setInfo, list_nodes, hx, ih]

theorem find_node_setInfo (g : Graph α) (x : α) (i : Wt × Option α) (y : α) :
    find_node (setInfo g x i) y = find_node g y := by
  induction g with
  | nil => rfl
  | cons n tl ih =>
    by_cases hx : x = n.name <;> by_cases hy : y = n.name <;>
      simp [setInfo, find_node, hx, hy, ih]

theorem edgesOf_setInfo (g : Graph α) (x : α) (i : Wt × Option α) (y : α) :
    edgesOf (setInfo g x i) y = edgesOf g y := by
  induction g with
  | nil => rfl
  | cons n tl ih =>
    by_cases hx : x = n.name
    · by_cases hy : y = n.name <;> simp [setInfo, edgesOf, get_node, hx, hy]
    · by_cases hy : y = n.name
      · simp [setInfo, edgesOf, get_node, hx, hy]
      · simpa [setInfo, edgesOf, get_node, hx, hy] using ih

theorem list_nodes_init (g : Graph α) (start : α) :
    list_nodes (init_single_source g start) = list_nodes g := by
  simp [init_single_source, list_nodes_eq_map]

theorem infoOf_init_start {g : Graph α} {start : α} (h : find_node g start = true) :
    infoOf (init_single_source g start) start = (0, none) := by
  induction g with
  | nil => simp [find_node] at h
  | cons n tl ih =>
    by_cases hx : start = n.name
    · simp [init_single_source, infoOf, get_node, hx]
    · simp only [find_node, if_neg hx] at h
      simpa [init_single_source, infoOf, get_node, hx] using ih h

theorem infoOf_init_of_ne_start {g : Graph α} {x : α} (start : α)
    (hm : find_node g x = true) (hx : x ≠ start) :
    infoOf (init_single_source g start) x = (⊤, none) := by
  induction g with
  | nil => simp [find_node] at hm
  | cons n tl ih =>
    by_cases hn : x = n.name
    · have : ¬ n.name = start := fun hc => hx (hn.trans hc)
      simp [init_single_source, infoOf, get_node, hn, this]
    · simp only [find_node, if_neg hn] at hm
      simpa [init_single_source, infoOf, get_node, hn] using ih hm

/-! Queue lemmas: `popIdx` / `minIndex` / `get_min_node`. -/

theorem popIdx_perm {β : Type} {l : List β} {i : ℕ} {x : β} {l2 : List β}
    (h : popIdx l i = some (x, l2)) : l.Perm (x :: l2) := by
  induction l generalizing i x l2 with
  | nil => simp [popIdx] at h
  | cons a tl ih =>
    match i with
    | 0 =>
      simp only [popIdx, Option.some.injEq, Prod.mk.injEq] at h
      rw [← h.1, ← h.2]
    | i + 1 =>
      simp only [popIdx, Option.map_eq_some'] at h
      obtain ⟨⟨y, l3⟩, h3, h4⟩ := h
      cases h4
      exact ((ih h3).cons a).trans (List.Perm.swap y a l3)

theorem popIdx_eq_none_iff {β : Type} {l : List β} {i : ℕ} :
    popIdx l i = none ↔ l.length ≤ i := by
  induction l generalizing i with
  | nil => simp [popIdx]
  | cons a tl ih =>
    match i with
    | 0 => simp [popIdx]
    | i + 1 =>
      rw [popIdx, Option.map_eq_none', ih, List.length_cons]
      exact Nat.succ_le_succ_iff.symm

theorem minIndexGo_lt (g : Graph α) (xs : List α) :
    ∀ (i best : ℕ) (bv : Wt), best < i → minIndexGo g xs i best bv < i + xs.length := by
  induction xs with
  | nil => intro i best bv hb; simpa [minIndexGo] using hb.trans_le (Nat.le_refl i)
  | cons x tl ih =>
    intro i best bv hb
    simp only [minIndexGo, List.length_cons]
    split
    · have := ih (i + 1) i (infoOf g x).1 (Nat.lt_succ_self i)
      omega
    · have := ih (i + 1) best bv (Nat.lt_succ_of_lt hb)
      omega

theorem minIndex_lt (g : Graph α) {q : List α} (h : q ≠ []) :
    minIndex g q < q.length := by
  match q with
  | [] => exact absurd rfl h
  | x :: xs =>
    have := minIndexGo_lt g xs 1 0 (infoOf g x).1 Nat.one_pos
    simp only [minIndex, List.length_cons]
    omega

theorem get_min_node_nil (g : Graph α) : get_min_node g [] = none := rfl

theorem get_min_node_ne_nil (g : Graph α) {q : List α} (h : q ≠ []) :
    ∃ u q2, get_min_node g q = some (u, q2) := by
  unfold get_min_node
  rcases hp : popIdx q (minIndex g q) with _ | ⟨⟨u, q2⟩⟩
  · exact absurd (popIdx_eq_none_iff.mp hp) (Nat.not_le.mpr (minIndex_lt g h))
  · exact ⟨u, q2, rfl⟩

theorem get_min_node_perm {g : Graph α} {q : List α} {u : α} {q2 : List α}
    (h : get_min_node g q = some (u, q2)) : q.Perm (u :: q2) :=
  popIdx_perm h

/-! When the popped node's distance is still `inf`, `relax` can never fire
(`x > inf + w` is false), so a whole Dijkstra run started from a non-member
start node leaves every scratch field untouched. -/

theorem relax_eq_of_top {g : Graph α} {u : α} (h : (infoOf g u).1 = ⊤)
    (v : α) (w : ℕ) : relax g u v w = g := by
  unfold relax
  rw [h, top_add]
  simp [not_top_lt]

theorem relaxList_eq_of_top {g : Graph α} {u : α} (h : (infoOf g u).1 = ⊤)
    (l : List (α × ℕ)) : relaxList g u l = g := by
  induction l with
  | nil => rfl
  | cons e tl ih =>
    obtain ⟨dst, w⟩ := e
    rw [relaxList, relax_eq_of_top h, ih]

theorem dijkstraLoop_inert :
    ∀ (fuel : ℕ) (g : Graph α) (q s : List α), q.length ≤ fuel →
      (∀ x ∈ q, (infoOf g x).1 = ⊤) →
      (dijkstraLoop fuel g q s).1 = g ∧ (dijkstraLoop fuel g q s).2.Perm (s ++ q) := by
  intro fuel
  induction fuel with
  | zero =>
    intro g q s hf _
    have : q = [] := List.eq_nil_of_length_eq_zero (Nat.le_zero.mp hf)
    subst this
    simp [dijkstraLoop]
  | succ fuel ih =>
    intro g q s hf hq
    by_cases hqn : q = []
    · subst hqn
      simp [dijkstraLoop, get_min_node_nil]
    · obtain ⟨u, q2, hmin⟩ := get_min_node_ne_nil g hqn
      have hperm := get_min_node_perm hmin
      have hu : u ∈ q := hperm.mem_iff.mpr (List.mem_cons_self u q2)
      simp only [dijkstraLoop, hmin]
      rw [relaxList_eq_of_top (hq u hu)]
      have hlen : q2.length + 1 = q.length := get_min_node_length hmin
      obtain ⟨h1, h2⟩ := ih g q2 (s ++ [u]) (by omega)
        (fun x hx => hq x (hperm.mem_iff.mpr (List.mem_cons_of_mem u hx)))
      refine ⟨h1, h2.trans ?_⟩
      rw [(by simp : (s ++ [u]) ++ q2 = s ++ (u :: q2))]
      exact hperm.symm.append_left s

/-! `get_output` write-out lemmas. -/

theorem set_append_replicate {β : Type} (a b : β) :
    ∀ (i k : ℕ), (List.replicate i a ++ List.replicate (k + 1) b).set i a =
      List.replicate (i + 1) a ++ List.replicate k b := by
  intro i
  induction i with
  | zero => intro k; simp [List.replicate_succ]
  | succ i ih =>
    intro k
    calc (List.replicate (i + 1) a ++ List.replicate (k + 1) b).set (i + 1) a
        = a :: (List.replicate i a ++ List.replicate (k + 1) b).set i a := by
          rw [List.replicate_succ, List.cons_append, List.set_cons_succ]
      _ = a :: (List.replicate (i + 1) a ++ List.replicate k b) := by rw [ih k]
      _ = List.replicate (i + 1 + 1) a ++ List.replicate k b := by
          conv_rhs => rw [List.replicate_succ, List.cons_append]

theorem take_set_succ {β : Type} :
    ∀ (d : List β) (i : ℕ) (v : β), i < d.length →
      (d.set i v).take (i + 1) = d.take i ++ [v] := by
  intro d
  induction d with
  | nil => intro i v h; simp at h
  | cons a tl ih =>
    intro i v h
    match i with
    | 0 => simp
    | i + 1 =>
      simp only [List.set_cons_succ, List.take_succ_cons, List.cons_append]
      rw [ih i v (by simpa using h)]

theorem fillOut_eq_map (g : Graph α) :
    ∀ (l : List α) (i : ℕ) (d : List (Option Wt)) (e : List (Option α)),
      i + l.length = d.length → d.length = e.length →
      fillOut g l i d e =
        (d.take i ++ l.map fun x =>
           if (infoOf g x).1 = 0 then none else some (infoOf g x).1,
         e.take i ++ l.map fun x =>
           if (infoOf g x).1 = 0 then none else (infoOf g x).2) := by
  intro l
  induction l with
  | nil =>
    intro i d e hd he
    simp only [List.length_nil, Nat.add_zero] at hd
    simp only [fillOut, List.map_nil, List.append_nil]
    rw [List.take_of_length_le (le_of_eq hd.symm),
      List.take_of_length_le (le_of_eq (hd.trans he).symm)]
  | cons x tl ih =>
    intro i d e hd he
    have hi : i < d.length := by simp only [List.length_cons] at hd; omega
    have hie : i < e.length := by omega
    simp only [fillOut]
    rw [ih (i + 1) _ _ (by simp only [List.length_set, List.length_cons] at *; omega)
      (by simp only [List.length_set]; omega)]
    rw [take_set_succ d i _ hi, take_set_succ e i _ hie]
    simp [List.append_assoc]

theorem map_const_of_mem {β γ : Type} {f : β → γ} {c : γ} :
    ∀ {l : List β}, (∀ x ∈ l, f x = c) → l.map f = List.replicate l.length c := by
  intro l
  induction l with
  | nil => intro _; rfl
  | cons x tl ih =>
    intro h
    simp only [List.map_cons, List.length_cons, List.replicate_succ,
      h x (List.mem_cons_self x tl), ih fun y hy => h y (List.mem_cons_of_mem x hy)]

end Algo

/-! ### C10: Dijkstra with a non-member start node -/

/-- **C10**.  If the start node is not a member (an input the spec rules out),
`init_single_source` sets every scratch distance to `inf` (nothing is `0`),
`get_min_node` still pops nodes but `relax` never fires (`x > inf + w` is
always false), and `get_output` maps nothing through its zero-distance rule:
the run completes without error and returns distance `inf` and predecessor
`None` at every index.  (Edge closure keeps the Python run itself from
crashing on `get_node`'s sentinel.) -/
theorem c10_dijkstra_missing_start {α : Type} [LinearOrder α]
    (g : Graph α) (start : α) (hne : g ≠ []) (hcl : Closed g)
    (hstart : find_node g start = false) :
    dijkstra g start =
      (List.replicate (node_cardinality g) (some (⊤ : Wt)),
       List.replicate (node_cardinality g) (none : Option α)) := by
  simp only [dijkstra, get_output]
  have hnames : list_nodes (init_single_source g start) = list_nodes g :=
    list_nodes_init g start
  have htop : ∀ x ∈ list_nodes (init_single_source g start),
      infoOf (init_single_source g start) x = (⊤, none) := by
    intro x hx
    rw [hnames, list_nodes_eq_map] at hx
    obtain ⟨n, hn, rfl⟩ := List.mem_map.mp hx
    have hmem : find_node g n.name = true := AdjList.find_node_iff.mpr ⟨n, hn, rfl⟩
    have hxne : n.name ≠ start := by
      rintro rfl
      rw [hmem] at hstart
      cases hstart
    rw [infoOf_init_of_ne_start start hmem hxne]
  obtain ⟨h1, h2⟩ := dijkstraLoop_inert (list_nodes (init_single_source g start)).length
    (init_single_source g start) (list_nodes (init_single_source g start)) [] le_rfl
    (fun x hx => by rw [htop x hx])
  rw [h1]
  have hs2len : (dijkstraLoop (list_nodes (init_single_source g start)).length
      (init_single_source g start) (list_nodes (init_single_source g start)) []).2.length =
      (list_nodes g).length := by
    rw [h2.length_eq]
    simp [hnames]
  have hslen : (List.insertionSort (· ≤ ·)
      (dijkstraLoop (list_nodes (init_single_source g start)).length
        (init_single_source g start) (list_nodes (init_single_source g start)) []).2).length =
      (list_nodes g).length := by
    rw [(List.perm_insertionSort _ _).length_eq, hs2len]
  have hcard : node_cardinality g = (list_nodes g).length := by
    rw [node_cardinality_eq_length, list_nodes_eq_map, List.length_map]
  rw [fillOut_eq_map _ _ 0 _ _ (by simp [hslen, hcard]) (by simp)]
  have hmem2 : ∀ x ∈ List.insertionSort (· ≤ ·)
      (dijkstraLoop (list_nodes (init_single_source g start)).length
        (init_single_source g start) (list_nodes (init_single_source g start)) []).2,
      infoOf (init_single_source g start) x = (⊤, none) := by
    intro x hx
    have hx2 := (List.perm_insertionSort (· ≤ ·) _).mem_iff.mp hx
    have := h2.mem_iff.mp hx2
    simp only [List.nil_append] at this
    exact htop x this
  simp only [List.take_zero, List.nil_append, Prod.mk.injEq]
  constructor
  · rw [map_const_of_mem (c := some (⊤ : Wt)) (fun x hx => by
      rw [hmem2 x hx]; norm_num), hslen, hcard]
  · rw [map_const_of_mem (c := (none : Option α)) (fun x hx => by
      rw [hmem2 x hx]; norm_num), hslen, hcard]

/-- Witness for C10: `'z'` is not a node of `gd`. -/
theorem c10_witness :
    (gd ≠ [] ∧ Closed gd ∧ find_node gd 'z' = false) ∧
    dijkstra gd 'z' =
      (List.replicate (node_cardinality gd) (some (⊤ : Wt)),
       List.replicate (node_cardinality gd) (none : Option Char)) :=
  ⟨⟨by decide, by decide, by decide⟩,
   c10_dijkstra_missing_start gd 'z' (by decide) (by decide) (by decide)⟩

/-! ### C5: Prim's relaxation rule -/

/-- **C5**.  Prim's edge scan (`primRelaxStep`, the loop body of
`primRelaxList` inside `prim`) relaxes a scanned edge `u→dst` of weight `w`
exactly when `dst` is still in the working set `q2` and `w < lowcost(dst)`:
it then sets `dst`'s scratch pair to `(w, u)` — the bare weight `w`, not
`lowcost(u) + w` — and changes no other node's scratch state; in every other
case the graph is returned unchanged.  On the spec's undirected scenario
(`gp`: `a↔b(1)`, `a↔c(3)`, `b↔c(1)`), `prim` from `a` returns
lowcost `[None, 1, 1]` and closest `[None, 'a', 'b']`. -/
theorem c5_prim_relaxation {α : Type} [LinearOrder α] (g : Graph α)
    (q2 : List α) (u dst : α) (w : ℕ) (hdst : find_node g dst = true) :
    (dst ∈ q2 ∧ (w : Wt) < (infoOf g dst).1 →
      infoOf (primRelaxStep g q2 u dst w) dst = ((w : Wt), some u) ∧
      ∀ y, y ≠ dst → infoOf (primRelaxStep g q2 u dst w) y = infoOf g y) ∧
    (¬(dst ∈ q2 ∧ (w : Wt) < (infoOf g dst).1) →
      primRelaxStep g q2 u dst w = g) ∧
    prim gp 'a' = ([none, some 1, some 1], [none, some 'a', some 'b']) := by
  refine ⟨fun hc => ?_, fun hc => ?_, by decide⟩
  · unfold primRelaxStep
    rw [if_pos hc]
    exact ⟨infoOf_setInfo_self hdst _, fun y hy => infoOf_setInfo_ne hy _⟩
  · unfold primRelaxStep
    rw [if_neg hc]

/-- Witness for C5: the first scanned edge `a→b(1)` of the scenario run does
fire (`b` is in the working set and `1 < inf`) and writes `(1, 'a')`. -/
theorem c5_witness :
    (find_node (init_single_source gp 'a') 'b' = true ∧
     ('b' ∈ ['b', 'c'] ∧ ((1 : ℕ) : Wt) < (infoOf (init_single_source gp 'a') 'b').1)) ∧
    infoOf (primRelaxStep (init_single_source gp 'a') ['b', 'c'] 'a' 'b' 1) 'b' =
      (((1 : ℕ) : Wt), some 'a') :=
  ⟨⟨by decide, by decide, by decide⟩,
   ((c5_prim_relaxation (init_single_source gp 'a') ['b', 'c'] 'a' 'b' 1
      (by decide)).1 ⟨by decide, by decide⟩).1⟩

/-! ### C2: Dijkstra's output mapping -/

namespace Algo

variable {α : Type} [LinearOrder α]

theorem list_nodes_relax (g : Graph α) (u v : α) (w : ℕ) :
    list_nodes (relax g u v w) = list_nodes g := by
  unfold relax
  split
  · exact list_nodes_setInfo g v _
  · rfl

theorem list_nodes_relaxList :
    ∀ (l : List (α × ℕ)) (g : Graph α) (u : α),
      list_nodes (relaxList g u l) = list_nodes g := by
  intro l
  induction l with
  | nil => intro g u; rfl
  | cons e tl ih =>
    intro g u
    obtain ⟨dst, w⟩ := e
    rw [relaxList, ih, list_nodes_relax]

theorem list_nodes_dijkstraLoop :
    ∀ (fuel : ℕ) (g : Graph α) (q s : List α),
      list_nodes (dijkstraLoop fuel g q s).1 = list_nodes g := by
  intro fuel
  induction fuel with
  | zero => intro g q s; rfl
  | succ fuel ih =>
    intro g q s
    rcases hmin : get_min_node g q with _ | ⟨⟨u, q2⟩⟩
    · simp [dijkstraLoop, hmin]
    · simp only [dijkstraLoop, hmin]
      rw [ih, list_nodes_relaxList]

theorem dijkstraLoop_s_perm :
    ∀ (fuel : ℕ) (g : Graph α) (q s : List α), q.length ≤ fuel →
      (dijkstraLoop fuel g q s).2.Perm (s ++ q) := by
  intro fuel
  induction fuel with
  | zero =>
    intro g q s hf
    have : q = [] := List.eq_nil_of_length_eq_zero (Nat.le_zero.mp hf)
    subst this
    simp [dijkstraLoop]
  | succ fuel ih =>
    intro g q s hf
    by_cases hqn : q = []
    · subst hqn
      simp [dijkstraLoop, get_min_node_nil]
    · obtain ⟨u, q2, hmin⟩ := get_min_node_ne_nil g hqn
      have hperm := get_min_node_perm hmin
      have hlen : q2.length + 1 = q.length := get_min_node_length hmin
      simp only [dijkstraLoop, hmin]
      refine (ih _ q2 (s ++ [u]) (by omega)).trans ?_
      rw [(by simp : (s ++ [u]) ++ q2 = s ++ (u :: q2))]
      exact hperm.symm.append_left s

theorem infoOf_relax_start {g : Graph α} {start : α} (h : (infoOf g start).1 = 0)
    (u v : α) (w : ℕ) : (infoOf (relax g u v w) start).1 = 0 := by
  unfold relax
  split
  · rename_i hcond
    by_cases hv : start = v
    · subst hv
      rw [h] at hcond
      exact absurd hcond (not_lt.mpr (zero_le _))
    · rw [infoOf_setInfo_ne hv _]
      exact h
  · exact h

theorem infoOf_relaxList_start :
    ∀ (l : List (α × ℕ)) (g : Graph α) {start : α} (u : α),
      (infoOf g start).1 = 0 → (infoOf (relaxList g u l) start).1 = 0 := by
  intro l
  induction l with
  | nil => intro g start u h; exact h
  | cons e tl ih =>
    intro g start u h
    obtain ⟨dst, w⟩ := e
    rw [relaxList]
    exact ih _ u (infoOf_relax_start h u dst w)

theorem dijkstraLoop_start0 :
    ∀ (fuel : ℕ) (g : Graph α) (q s : List α) {start : α},
      (infoOf g start).1 = 0 → (infoOf (dijkstraLoop fuel g q s).1 start).1 = 0 := by
  intro fuel
  induction fuel with
  | zero => intro g q s start h; exact h
  | succ fuel ih =>
    intro g q s start h
    rcases hmin : get_min_node g q with _ | ⟨⟨u, q2⟩⟩
    · simpa [dijkstraLoop, hmin] using h
    · simp only [dijkstraLoop, hmin]
      exact ih _ q2 (s ++ [u]) (infoOf_relaxList_start _ _ u h)

/-- The scratch state (info fields) at Dijkstra's loop exit: this is the state
that `get_output` reads. -/
def dijkstraFinal (g : Graph α) (start : α) : Graph α :=
  (dijkstraLoop (list_nodes (init_single_source g start)).length
    (init_single_source g start) (list_nodes (init_single_source g start)) []).1

end Algo

/-- **C2** counterexample.  On `gz` (nodes `a`, `b`, single edge `a→b` of
weight `0`, start `a`) the final scratch distance of `b` is `0`, so
`get_output`'s zero-distance rule also maps index `1` — node `b`, which is
not the start node — to `None` in both arrays: `None` is not produced
"exactly at the start node's own index", and `b`'s entries are not its final
scratch values `(0, 'a')`. -/
theorem c2_counterexample :
    list_nodes gz = ['a', 'b'] ∧ find_node gz 'b' = true ∧ ('b' : Char) ≠ 'a' ∧
    dijkstra gz 'a' = ([none, none], [none, none]) := by
  decide

/-- **C2** (amended).  For every well-formed non-empty graph whose edges point
at member nodes and every member start node, `dijkstra` returns the two
arrays indexed by ascending node-name order whose entries are `None` exactly
at indices whose final scratch distance is `0` — which always includes the
start node's own index, and under positive edge weights only it — and are the
final scratch distance/predecessor values at every other index.  The spec's
scenario (`gd`, start `a`) yields distance `[None, 1, 2]`, predecessor
`[None, 'a', 'a']`. -/
theorem c2_dijkstra_output_zero_rule {α : Type} [LinearOrder α]
    (g : Graph α) (start : α) (hwf : WF g) (hcl : Closed g) (hne : g ≠ [])
    (hstart : find_node g start = true) :
    (dijkstra g start).1 = ((list_nodes g).map fun x =>
        if (infoOf (dijkstraFinal g start) x).1 = 0 then none
        else some (infoOf (dijkstraFinal g start) x).1) ∧
    (dijkstra g start).2 = ((list_nodes g).map fun x =>
        if (infoOf (dijkstraFinal g start) x).1 = 0 then none
        else (infoOf (dijkstraFinal g start) x).2) ∧
    (infoOf (dijkstraFinal g start) start).1 = 0 ∧
    dijkstra gd 'a' = ([none, some 1, some 2], [none, some 'a', some 'a']) := by
  have hnames : list_nodes (init_single_source g start) = list_nodes g :=
    list_nodes_init g start
  have hperm : (dijkstraLoop (list_nodes (init_single_source g start)).length
      (init_single_source g start) (list_nodes (init_single_source g start)) []).2.Perm
      (list_nodes g) := by
    refine (dijkstraLoop_s_perm _ _ _ [] le_rfl).trans ?_
    rw [List.nil_append, hnames]
  have hsort : List.insertionSort (· ≤ ·)
      (dijkstraLoop (list_nodes (init_single_source g start)).length
        (init_single_source g start) (list_nodes (init_single_source g start)) []).2 =
      list_nodes g :=
    List.eq_of_perm_of_sorted ((List.perm_insertionSort _ _).trans hperm)
      (List.sorted_insertionSort _ _) (hwf.imp fun h => le_of_lt h)
  have hcard : node_cardinality g = (list_nodes g).length := by
    rw [node_cardinality_eq_length, list_nodes_eq_map, List.length_map]
  refine ⟨?_, ?_, ?_, by decide⟩
  · simp only [dijkstra, get_output, dijkstraFinal]
    rw [hsort, fillOut_eq_map _ _ 0 _ _ (by simp [hcard]) (by simp)]
    simp
  · simp only [dijkstra, get_output, dijkstraFinal]
    rw [hsort, fillOut_eq_map _ _ 0 _ _ (by simp [hcard]) (by simp)]
    simp
  · exact dijkstraLoop_start0 _ _ _ _ (by rw [infoOf_init_start hstart])

/-! ### C7: Warshall as the image of Floyd -/

namespace Algo

theorem getD_map_of_lt {β γ : Type} (f : β → γ) (l : List β) (i : ℕ)
    (h : i < l.length) (d1 : β) (d2 : γ) : (l.map f).getD i d2 = f (l.getD i d1) := by
  rw [List.getD_eq_getElem?_getD, List.getD_eq_getElem?_getD, List.getElem?_map,
    List.getElem?_eq_getElem h]
  rfl

end Algo

/-- **C7**.  `warshall` is exactly the cell-by-cell image of `floyd`'s matrix
under `finite ↦ true`, `inf ↦ false`: same outer length, same row lengths, and
each cell of `warshall` is `true` iff the corresponding `floyd` cell is not
`inf`. -/
theorem c7_warshall_image_of_floyd {α : Type} [LinearOrder α] (g : Graph α)
    (i j : ℕ) (hi : i < (floyd g).length)
    (hj : j < ((floyd g).getD i []).length) :
    (warshall g).length = (floyd g).length ∧
    ((warshall g).getD i []).length = ((floyd g).getD i []).length ∧
    (((warshall g).getD i []).getD j false = true ↔
      ((floyd g).getD i []).getD j (⊤ : Wt) ≠ ⊤) := by
  have hrow : (warshall g).getD i [] =
      ((floyd g).getD i []).map fun c => if c = ⊤ then false else true :=
    Algo.getD_map_of_lt _ _ i hi [] []
  refine ⟨by simp [warshall], by rw [hrow, List.length_map], ?_⟩
  rw [hrow, Algo.getD_map_of_lt _ _ j hj (⊤ : Wt) false]
  by_cases hc : ((floyd g).getD i []).getD j (⊤ : Wt) = ⊤ <;> simp [hc]

/-- Witness for C7 at the Floyd/Warshall scenario graph `gf`, cell `(1,0)`
(the unreachable pair `b→a`). -/
theorem c7_witness :
    ((1 : ℕ) < (floyd gf).length ∧ (0 : ℕ) < ((floyd gf).getD 1 []).length) ∧
    (((warshall gf).getD 1 []).getD 0 false = true ↔
      ((floyd gf).getD 1 []).getD 0 (⊤ : Wt) ≠ ⊤) :=
  ⟨⟨by decide, by decide⟩,
   (c7_warshall_image_of_floyd gf 1 0 (by decide) (by decide)).2.2⟩

/-- Witness for C2 (amended) on the scenario graph `gd` with start `'a'`. -/
theorem c2_witness :
    (WF gd ∧ Closed gd ∧ gd ≠ [] ∧ find_node gd 'a' = true) ∧
    ((dijkstra gd 'a').1 = ((list_nodes gd).map fun x =>
        if (infoOf (dijkstraFinal gd 'a') x).1 = 0 then none
        else some (infoOf (dijkstraFinal gd 'a') x).1) ∧
     (dijkstra gd 'a').2 = ((list_nodes gd).map fun x =>
        if (infoOf (dijkstraFinal gd 'a') x).1 = 0 then none
        else (infoOf (dijkstraFinal gd 'a') x).2) ∧
     (infoOf (dijkstraFinal gd 'a') 'a').1 = 0 ∧
     dijkstra gd 'a' = ([none, some 1, some 2], [none, some 'a', some 'a'])) :=
  ⟨⟨by decide, by decide, by decide, by decide⟩,
   c2_dijkstra_output_zero_rule gd 'a' (by decide) (by decide) (by decide) (by decide)⟩

/-! ### C3: Floyd — matrix infrastructure

Pointwise lemmas about `getCell`/`setCell`, the `n × n` shape invariant, and
the single-cell update `floydStep`. -/

namespace Floyd

open AdjList Algo

theorem getD_set_self {β : Type} {l : List β} {i : ℕ} (h : i < l.length)
    (a d : β) : (l.set i a).getD i d = a := by
  rw [List.getD_eq_getElem?_getD, List.getElem?_set]
  simp [h]

theorem getD_set_ne {β : Type} (l : List β) {i j : ℕ} (h : i ≠ j) (a d : β) :
    (l.set i a).getD j d = l.getD j d := by
  rw [List.getD_eq_getElem?_getD, List.getElem?_set, if_neg h,
    ← List.getD_eq_getElem?_getD]

theorem getD_oob {β : Type} {l : List β} {i : ℕ} (h : l.length ≤ i) (d : β) :
    l.getD i d = d := by
  rw [List.getD_eq_getElem?_getD, List.getElem?_eq_none h]
  rfl

theorem getD_replicate {β : Type} (n i : ℕ) (a d : β) :
    (List.replicate n a).getD i d = if i < n then a else d := by
  rw [List.getD_eq_getElem?_getD, List.getElem?_replicate]
  split <;> rfl

theorem getCell_setCell (m : Mat) (i j : ℕ) (v : Wt) (i2 j2 : ℕ) :
    getCell (setCell m i j v) i2 j2 =
      if i2 = i ∧ j2 = j ∧ i < m.length ∧ j < (m.getD i []).length then v
      else getCell m i2 j2 := by
  by_cases hii : i2 = i
  · subst hii
    by_cases hjj : j2 = j
    · subst hjj
      by_cases hr : i2 < m.length
      · by_cases hc : j2 < (m.getD i2 []).length
        · rw [if_pos ⟨rfl, rfl, hr, hc⟩]
          unfold getCell setCell
          rw [getD_set_self hr, getD_set_self hc]
        · rw [if_neg (by tauto)]
          unfold getCell setCell
          rw [getD_set_self hr, List.set_eq_of_length_le (not_lt.mp hc)]
      · rw [if_neg (by tauto)]
        unfold getCell setCell
        rw [List.set_eq_of_length_le (not_lt.mp hr)]
    · rw [if_neg (by tauto)]
      unfold getCell setCell
      by_cases hr : i2 < m.length
      · rw [getD_set_self hr, getD_set_ne _ fun hh => hjj hh.symm]
      · rw [List.set_eq_of_length_le (not_lt.mp hr)]
  · rw [if_neg (by tauto)]
    unfold getCell setCell
    rw [getD_set_ne _ fun hh => hii hh.symm]

/-- The matrix is a full `n × n` grid. -/
def Shaped (m : Mat) (n : ℕ) : Prop :=
  m.length = n ∧ ∀ i < n, (m.getD i []).length = n

theorem getCell_oob {m : Mat} {n : ℕ} (h : Shaped m n) {i j : ℕ}
    (hij : n ≤ i ∨ n ≤ j) : getCell m i j = ⊤ := by
  unfold getCell
  rcases hij with hi | hj
  · have hrow : m.getD i [] = [] := getD_oob (by rw [h.1]; exact hi) []
    rw [hrow]
    rfl
  · by_cases hi : i < n
    · exact getD_oob (by rw [h.2 i hi]; exact hj) _
    · have hrow : m.getD i [] = [] := getD_oob (by rw [h.1]; exact not_lt.mp hi) []
      rw [hrow]
      rfl

theorem Shaped.setCell {m : Mat} {n : ℕ} (h : Shaped m n) (i j : ℕ) (v : Wt) :
    Shaped (setCell m i j v) n := by
  refine ⟨by rw [AdjList.setCell, List.length_set, h.1], fun i2 hi2 => ?_⟩
  unfold AdjList.setCell
  by_cases hii : i = i2
  · subst hii
    by_cases hr : i < m.length
    · rw [getD_set_self hr, List.length_set]
      exact h.2 i hi2
    · rw [List.set_eq_of_length_le (not_lt.mp hr)]
      exact h.2 i hi2
  · rw [getD_set_ne _ hii]
    exact h.2 i2 hi2

theorem Shaped.infMatrix (n : ℕ) : Shaped (infMatrix n) n := by
  refine ⟨List.length_replicate n _, fun i hi => ?_⟩
  rw [AdjList.infMatrix, getD_replicate, if_pos hi, List.length_replicate]

theorem getCell_infMatrix (n i j : ℕ) : getCell (infMatrix n) i j = ⊤ := by
  unfold getCell AdjList.infMatrix
  rw [getD_replicate]
  split
  · rw [getD_replicate]
    split <;> rfl
  · rfl

/-- The value a pass-`k` visit writes into cell `(i, j)`, as a function of the
matrix it reads. -/
def passCell (m : Mat) (k i j : ℕ) : Wt :=
  if i = j ∧ getCell m i j = ⊤ then 0
  else min (getCell m i j) (getCell m i k + getCell m k j)

theorem floydStep_eq (m : Mat) (k i j : ℕ) :
    floydStep m k i j = setCell m i j (passCell m k i j) := rfl

theorem passCell_col_k (m : Mat) {k i : ℕ} (h : i ≠ k) :
    passCell m k i k = getCell m i k := by
  unfold passCell
  rw [if_neg fun hc => h hc.1]
  exact min_eq_left le_self_add

theorem passCell_row_k (m : Mat) {k j : ℕ} (h : j ≠ k) :
    passCell m k k j = getCell m k j := by
  unfold passCell
  rw [if_neg fun hc => h hc.1.symm]
  exact min_eq_left le_add_self

theorem passCell_kk (m : Mat) (k : ℕ) :
    passCell m k k k = if getCell m k k = ⊤ then 0 else getCell m k k := by
  unfold passCell
  by_cases hc : getCell m k k = ⊤
  · simp [hc]
  · rw [if_neg fun h => hc h.2, if_neg hc]
    exact min_eq_left le_self_add

/-- Reading congruence: the pass value of cell `(i, j)` is unchanged if the
two matrices agree at `(i, j)`, and agree at `(i, k)` and `(k, j)` except
possibly for the inert replacement of a `⊤` at `(k, k)` by `0`. -/
theorem passCell_congr {m1 m0 : Mat} {k i j : ℕ}
    (h1 : getCell m1 i j = getCell m0 i j)
    (h2 : getCell m1 i k = getCell m0 i k ∨
      (i = k ∧ getCell m0 k k = ⊤ ∧ getCell m1 i k = 0))
    (h3 : getCell m1 k j = getCell m0 k j ∨
      (j = k ∧ getCell m0 k k = ⊤ ∧ getCell m1 k j = 0)) :
    passCell m1 k i j = passCell m0 k i j := by
  unfold passCell
  rw [h1]
  by_cases hd : i = j ∧ getCell m0 i j = ⊤
  · rw [if_pos hd, if_pos hd]
  · rw [if_neg hd, if_neg hd]
    rcases h2 with h2 | ⟨hik, htop2, hz2⟩
    · rcases h3 with h3 | ⟨hjk, htop3, hz3⟩
      · rw [h2, h3]
      · subst hjk
        rw [h2, hz3, htop3, add_zero, add_top, min_self]
        exact (min_eq_left le_top).symm
    · subst hik
      rcases h3 with h3 | ⟨hjk, htop3, hz3⟩
      · rw [hz2, h3, zero_add, htop2, top_add, min_self]
        exact (min_eq_left le_top).symm
      · subst hjk
        exact absurd ⟨rfl, htop2⟩ hd

/-- The inner `for j in range(n)` loop of one row of a pass. -/
def rowFold (k i : ℕ) (js : List ℕ) (m : Mat) : Mat :=
  js.foldl (fun m j => floydStep m k i j) m

/-- One whole pass `k` of `floyd`'s triple loop. -/
def passAll (n k : ℕ) (m : Mat) : Mat :=
  (List.range n).foldl (fun m i => rowFold k i (List.range n) m) m

theorem rowFold_spec {n : ℕ} (k i : ℕ) (hk : k < n) (hi : i < n)
    (m1 : Mat) :
    ∀ (js : List ℕ) (m : Mat), js.Nodup → (∀ j ∈ js, j < n) → Shaped m n →
      (∀ i2 j2, i2 ≠ i → getCell m i2 j2 = getCell m1 i2 j2) →
      (∀ j ∈ js, getCell m i j = getCell m1 i j) →
      (∀ j2 < n, j2 ∉ js → getCell m i j2 = passCell m1 k i j2) →
      Shaped (rowFold k i js m) n ∧
      (∀ i2 j2, i2 ≠ i → getCell (rowFold k i js m) i2 j2 = getCell m1 i2 j2) ∧
      (∀ j2 < n, getCell (rowFold k i js m) i j2 =
        if j2 ∈ js then passCell m1 k i j2 else getCell m i j2) := by
  intro js
  induction js with
  | nil =>
    intro m _ _ hsm hrow hrem hdone
    exact ⟨hsm, hrow, fun j2 _ => by simp [rowFold]⟩
  | cons j js ih =>
    intro m hnd hlt hsm hrow hrem hdone
    have hjn : j < n := hlt j (List.mem_cons_self j js)
    have hjnotin : j ∉ js := (List.nodup_cons.mp hnd).1
    have hstep : rowFold k i (j :: js) m = rowFold k i js (floydStep m k i j) := rfl
    -- the written value is the pass value read off the row-start matrix m1
    have hval : passCell m k i j = passCell m1 k i j := by
      refine passCell_congr (hrem j (List.mem_cons_self j js)) ?_ ?_
      · by_cases hkin : k ∈ j :: js
        · exact Or.inl (hrem k hkin)
        · have hknotin : k ∉ js := fun hc => hkin (List.mem_cons_of_mem j hc)
          have hkdone := hdone k hk hkin
          by_cases hik : i = k
          · subst hik
            rw [passCell_kk] at hkdone
            by_cases htop : getCell m1 i i = ⊤
            · rw [if_pos htop] at hkdone
              exact Or.inr ⟨rfl, htop, hkdone⟩
            · rw [if_neg htop] at hkdone
              exact Or.inl hkdone
          · rw [passCell_col_k m1 hik] at hkdone
            exact Or.inl hkdone
      · by_cases hki : k = i
        · subst hki
          exact Or.inl (hrem j (List.mem_cons_self j js))
        · exact Or.inl (hrow k j hki)
    have hrange : i < m.length ∧ j < (m.getD i []).length := by
      constructor
      · rw [hsm.1]; exact hi
      · rw [hsm.2 i hi]; exact hjn
    have hget : ∀ i2 j2, getCell (floydStep m k i j) i2 j2 =
        if i2 = i ∧ j2 = j then passCell m1 k i j else getCell m i2 j2 := by
      intro i2 j2
      rw [floydStep_eq, getCell_setCell]
      by_cases hc : i2 = i ∧ j2 = j
      · rw [if_pos ⟨hc.1, hc.2, hrange.1, hrange.2⟩, if_pos hc, hval]
      · rw [if_neg (by tauto), if_neg hc]
    obtain ⟨c1, c2, c3⟩ := ih (floydStep m k i j)
      (List.nodup_cons.mp hnd).2
      (fun j2 hj2 => hlt j2 (List.mem_cons_of_mem j hj2))
      (by rw [floydStep_eq]; exact hsm.setCell _ _ _)
      (fun i2 j2 hne => by
        rw [hget, if_neg (fun hc : i2 = i ∧ j2 = j => hne hc.1)]
        exact hrow i2 j2 hne)
      (fun j2 hj2 => by
        rw [hget, if_neg (fun hc : i = i ∧ j2 = j => hjnotin (hc.2 ▸ hj2))]
        exact hrem j2 (List.mem_cons_of_mem j hj2))
      (fun j2 hj2n hj2 => by
        rw [hget]
        by_cases hc : j2 = j
        · subst hc
          rw [if_pos ⟨rfl, rfl⟩]
        · rw [if_neg (by tauto)]
          exact hdone j2 hj2n fun hin => (List.mem_cons.mp hin).elim hc hj2)
    rw [hstep]
    refine ⟨c1, c2, fun j2 hj2 => ?_⟩
    rw [c3 j2 hj2]
    by_cases hin : j2 ∈ js
    · rw [if_pos hin, if_pos (List.mem_cons_of_mem j hin)]
    · by_cases hc : j2 = j
      · subst hc
        rw [if_neg hin, if_pos (List.mem_cons_self j2 js), hget, if_pos ⟨rfl, rfl⟩]
      · rw [if_neg hin, if_neg fun hin2 => (List.mem_cons.mp hin2).elim hc hin,
          hget, if_neg (by tauto)]

theorem passAll_fold_spec {n : ℕ} (k : ℕ) (hk : k < n) (m0 : Mat) :
    ∀ (is : List ℕ) (m : Mat), is.Nodup → (∀ i ∈ is, i < n) → Shaped m n →
      (∀ i ∈ is, ∀ j2, getCell m i j2 = getCell m0 i j2) →
      (∀ i2 < n, i2 ∉ is → ∀ j2 < n, getCell m i2 j2 = passCell m0 k i2 j2) →
      Shaped (is.foldl (fun m i => rowFold k i (List.range n) m) m) n ∧
      (∀ i2 < n, ∀ j2 < n,
        getCell (is.foldl (fun m i => rowFold k i (List.range n) m) m) i2 j2 =
          if i2 ∈ is then passCell m0 k i2 j2 else getCell m i2 j2) := by
  intro is
  induction is with
  | nil =>
    intro m _ _ hsm _ _
    exact ⟨hsm, fun i2 _ j2 _ => by simp⟩
  | cons i is ih =>
    intro m hnd hlt hsm hrem hdone
    have hin : i < n := hlt i (List.mem_cons_self i is)
    have hinotin : i ∉ is := (List.nodup_cons.mp hnd).1
    obtain ⟨r1s, r1rows, r1row⟩ := rowFold_spec k i hk hin m (List.range n) m
      (List.nodup_range n) (fun j hj => List.mem_range.mp hj) hsm
      (fun _ _ _ => rfl) (fun _ _ => rfl)
      (fun j2 hj2 hj2n => absurd (List.mem_range.mpr hj2) hj2n)
    -- the freshly written row equals the pass values of the pass-start matrix
    have hrowval : ∀ j2 < n, getCell (rowFold k i (List.range n) m) i j2 =
        passCell m0 k i j2 := by
      intro j2 hj2
      rw [r1row j2 hj2, if_pos (List.mem_range.mpr hj2)]
      refine passCell_congr (hrem i (List.mem_cons_self i is) j2) ?_ ?_
      · exact Or.inl (hrem i (List.mem_cons_self i is) k)
      · by_cases hkin : k ∈ i :: is
        · exact Or.inl (hrem k hkin j2)
        · have hkdone := hdone k hk hkin j2 hj2
          by_cases hjk : j2 = k
          · rw [hjk] at hkdone ⊢
            rw [passCell_kk] at hkdone
            by_cases htop : getCell m0 k k = ⊤
            · rw [if_pos htop] at hkdone
              exact Or.inr ⟨rfl, htop, hkdone⟩
            · rw [if_neg htop] at hkdone
              exact Or.inl hkdone
          · rw [passCell_row_k m0 hjk] at hkdone
            exact Or.inl hkdone
    have hfold : (i :: is).foldl (fun m i => rowFold k i (List.range n) m) m =
        is.foldl (fun m i => rowFold k i (List.range n) m)
          (rowFold k i (List.range n) m) := rfl
    obtain ⟨c1, c2⟩ := ih (rowFold k i (List.range n) m)
      (List.nodup_cons.mp hnd).2
      (fun i2 hi2 => hlt i2 (List.mem_cons_of_mem i hi2))
      r1s
      (fun i2 hi2 j2 => by
        have hne : i2 ≠ i := fun hc => hinotin (hc ▸ hi2)
        rw [r1rows i2 j2 hne]
        exact hrem i2 (List.mem_cons_of_mem i hi2) j2)
      (fun i2 hi2n hi2 j2 hj2 => by
        by_cases hc : i2 = i
        · subst hc
          exact hrowval j2 hj2
        · rw [r1rows i2 j2 hc]
          exact hdone i2 hi2n (fun hin2 => (List.mem_cons.mp hin2).elim hc hi2) j2 hj2)
    rw [hfold]
    refine ⟨c1, fun i2 hi2 j2 hj2 => ?_⟩
    rw [c2 i2 hi2 j2 hj2]
    by_cases hin2 : i2 ∈ is
    · rw [if_pos hin2, if_pos (List.mem_cons_of_mem i hin2)]
    · by_cases hc : i2 = i
      · subst hc
        rw [if_neg hin2, if_pos (List.mem_cons_self i2 is)]
        exact hrowval j2 hj2
      · rw [if_neg hin2, if_neg fun hin3 => (List.mem_cons.mp hin3).elim hc hin2,
          r1rows i2 j2 hc]

theorem passAll_getCell {n : ℕ} (k : ℕ) (hk : k < n) (m : Mat) (hs : Shaped m n) :
    Shaped (passAll n k m) n ∧
    ∀ i2 < n, ∀ j2 < n, getCell (passAll n k m) i2 j2 = passCell m k i2 j2 := by
  obtain ⟨c1, c2⟩ := passAll_fold_spec k hk m (List.range n) m (List.nodup_range n)
    (fun i hi => List.mem_range.mp hi) hs (fun _ _ _ => rfl)
    (fun i2 hi2 hi2n _ _ => absurd (List.mem_range.mpr hi2) hi2n)
  refine ⟨c1, fun i2 hi2 j2 hj2 => ?_⟩
  rw [passAll, c2 i2 hi2 j2 hj2, if_pos (List.mem_range.mpr hi2)]

/-- The functional pass recurrence computed by `floyd`'s triple loop:
`dmat w k` is the matrix contents (read as a function) after passes
`0 … k-1` starting from `w`. -/
def dmat (w : ℕ → ℕ → Wt) : ℕ → ℕ → ℕ → Wt
  | 0 => w
  | k + 1 => fun i j =>
      if i = j ∧ dmat w k i j = ⊤ then 0
      else min (dmat w k i j) (dmat w k i k + dmat w k k j)

variable {α : Type} [LinearOrder α]

theorem shaped_fillEdges (g : Graph α) (i : ℕ) :
    ∀ (l : List (α × ℕ)) (m : Mat) {n : ℕ}, Shaped m n →
      Shaped (fillEdges g i l m) n := by
  intro l
  induction l with
  | nil => intro m n h; exact h
  | cons e tl ih =>
    intro m n h
    obtain ⟨dst, w⟩ := e
    exact ih _ (h.setCell _ _ _)

theorem shaped_fillAll (g : Graph α) :
    ∀ (gs : Graph α) (i0 : ℕ) (m : Mat) {n : ℕ}, Shaped m n →
      Shaped (fillAll g gs i0 m) n := by
  intro gs
  induction gs with
  | nil => intro i0 m n h; exact h
  | cons nd tl ih =>
    intro i0 m n h
    exact ih _ _ (shaped_fillEdges g i0 nd.edges m h)

theorem shaped_init_matrix (g : Graph α) :
    Shaped (add_list_to_matrix g (infMatrix (node_cardinality g)))
      (node_cardinality g) :=
  shaped_fillAll g g 0 _ (Shaped.infMatrix _)

theorem floyd_eq_foldl (g : Graph α) :
    floyd g = (List.range (node_cardinality g)).foldl
      (fun m k => passAll (node_cardinality g) k m)
      (add_list_to_matrix g (infMatrix (node_cardinality g))) := rfl

theorem foldl_passes_getCell {n : ℕ} (m0 : Mat) (hs0 : Shaped m0 n) :
    ∀ t, t ≤ n →
      Shaped ((List.range t).foldl (fun m k => passAll n k m) m0) n ∧
      ∀ i j, i < n → j < n →
        getCell ((List.range t).foldl (fun m k => passAll n k m) m0) i j =
          dmat (fun a b => getCell m0 a b) t i j := by
  intro t
  induction t with
  | zero => exact fun _ => ⟨hs0, fun i j _ _ => rfl⟩
  | succ t ih =>
    intro ht
    obtain ⟨hsh, hc⟩ := ih (Nat.le_of_succ_le ht)
    have hkn : t < n := ht
    obtain ⟨ps, pc⟩ := passAll_getCell t hkn _ hsh
    rw [List.range_succ, List.foldl_append]
    simp only [List.foldl_cons, List.foldl_nil]
    refine ⟨ps, fun i j hi hj => ?_⟩
    rw [pc i hi j hj]
    show passCell _ t i j = dmat _ (t + 1) i j
    rw [passCell, dmat, hc i j hi hj, hc i t hi hkn, hc t j hkn hj]

theorem shaped_floyd (g : Graph α) : Shaped (floyd g) (node_cardinality g) := by
  rw [floyd_eq_foldl]
  exact (foldl_passes_getCell _ (shaped_init_matrix g) _ le_rfl).1

theorem getCell_floyd (g : Graph α) {i j : ℕ}
    (hi : i < node_cardinality g) (hj : j < node_cardinality g) :
    getCell (floyd g) i j =
      dmat (fun a b =>
          getCell (add_list_to_matrix g (infMatrix (node_cardinality g))) a b)
        (node_cardinality g) i j := by
  rw [floyd_eq_foldl]
  exact (foldl_passes_getCell _ (shaped_init_matrix g) _ le_rfl).2 i j hi hj

/-! Walk costs over a step-weight function, and the two classical facts about
the min-plus recurrence: every cell bounds every walk from below, and every
finite cell is attained by some walk. -/

/-- Cost of the walk following the vertex sequence `i :: l ++ [j]` with step
costs `w`.  A step along a missing edge costs `⊤`, so vertex sequences that
are not real walks have cost `⊤`. -/
def walkCost (w : ℕ → ℕ → Wt) : ℕ → List ℕ → ℕ → Wt
  | i, [], j => w i j
  | i, v :: l, j => w i v + walkCost w v l j

/-- Modelled from the spec: the weight function the code's recursion actually
explores — the input weights with each in-range `⊤` diagonal entry replaced
by `0`, which is what the `i == j and matrix[i][j] == inf` rule amounts to. -/
def adjustDiag (w : ℕ → ℕ → Wt) (n : ℕ) : ℕ → ℕ → Wt :=
  fun i j => if i = j ∧ i < n ∧ w i j = ⊤ then 0 else w i j

/-- The textbook min-plus recurrence, without the diagonal rule. -/
def sdmat (w : ℕ → ℕ → Wt) : ℕ → ℕ → ℕ → Wt
  | 0 => w
  | k + 1 => fun i j => min (sdmat w k i j) (sdmat w k i k + sdmat w k k j)

theorem walkCost_append (w : ℕ → ℕ → Wt) (v j : ℕ) :
    ∀ (l1 : List ℕ) (i : ℕ) (l2 : List ℕ),
      walkCost w i (l1 ++ v :: l2) j = walkCost w i l1 v + walkCost w v l2 j := by
  intro l1
  induction l1 with
  | nil => intro i l2; rfl
  | cons a l1 ih =>
    intro i l2
    show w i a + walkCost w a (l1 ++ v :: l2) j = (w i a + walkCost w a l1 v) + _
    rw [ih a l2, add_assoc]

theorem walkCost_mono {w1 w2 : ℕ → ℕ → Wt} (h : ∀ a b, w1 a b ≤ w2 a b) :
    ∀ (l : List ℕ) (i j : ℕ), walkCost w1 i l j ≤ walkCost w2 i l j := by
  intro l
  induction l with
  | nil => intro i j; exact h i j
  | cons v l ih => intro i j; exact add_le_add (h i v) (ih v j)

theorem walkCost_top {w : ℕ → ℕ → Wt} {n : ℕ} (hw : ∀ a b, n ≤ b → w a b = ⊤) :
    ∀ (l : List ℕ) (i j : ℕ), (∃ v ∈ l, n ≤ v) → walkCost w i l j = ⊤ := by
  intro l
  induction l with
  | nil => rintro i j ⟨v, hv, _⟩; cases hv
  | cons v l ih =>
    rintro i j ⟨u, hu, hun⟩
    rcases List.mem_cons.mp hu with rfl | hu2
    · show w i u + _ = ⊤
      rw [hw i u hun, top_add]
    · show w i v + _ = ⊤
      rw [ih v j ⟨u, hu2, hun⟩, add_top]

theorem dmat_succ_le (w : ℕ → ℕ → Wt) (k i j : ℕ) :
    dmat w (k + 1) i j ≤ dmat w k i j := by
  show (if i = j ∧ dmat w k i j = ⊤ then 0 else _) ≤ _
  split
  · rename_i hc
    rw [hc.2]
    exact le_top
  · exact min_le_left _ _

theorem dmat_diag_ne_top (w : ℕ → ℕ → Wt) :
    ∀ k, 1 ≤ k → ∀ i, dmat w k i i ≠ ⊤ := by
  intro k
  induction k with
  | zero => intro h; cases h
  | succ k ih =>
    intro _ i
    show (if i = i ∧ dmat w k i i = ⊤ then 0 else
      min (dmat w k i i) (dmat w k i k + dmat w k k i)) ≠ ⊤
    by_cases hc : dmat w k i i = ⊤
    · rw [if_pos ⟨rfl, hc⟩]
      exact WithTop.zero_ne_top
    · rw [if_neg fun h => hc h.2]
      exact ne_top_of_le_ne_top hc (min_le_left _ _)

theorem dmat_one_eq_sdmat_one {w : ℕ → ℕ → Wt} {n : ℕ} {i j : ℕ}
    (hi : i < n) (hj : j < n) :
    dmat w 1 i j = sdmat (adjustDiag w n) 1 i j := by
  have hn : 0 < n := Nat.lt_of_le_of_lt (Nat.zero_le i) hi
  show (if i = j ∧ w i j = ⊤ then 0
      else min (w i j) (w i 0 + w 0 j)) =
    min (adjustDiag w n i j) (adjustDiag w n i 0 + adjustDiag w n 0 j)
  by_cases hd : i = j ∧ w i j = ⊤
  · rw [if_pos hd]
    have : adjustDiag w n i j = 0 := by
      unfold adjustDiag
      rw [if_pos ⟨hd.1, hi, hd.2⟩]
    rw [this]
    exact (min_eq_left (zero_le _)).symm
  · rw [if_neg hd]
    have hadj : adjustDiag w n i j = w i j := by
      unfold adjustDiag
      rw [if_neg fun hc => hd ⟨hc.1, hc.2.2⟩]
    rw [hadj]
    by_cases hw0 : w 0 0 = ⊤
    · by_cases hi0 : i = 0
      · subst hi0
        by_cases hj0 : j = 0
        · subst hj0
          exact absurd ⟨rfl, hw0⟩ hd
        · have h1 : adjustDiag w n 0 0 = 0 := by
            unfold adjustDiag
            rw [if_pos ⟨rfl, hn, hw0⟩]
          have h2 : adjustDiag w n 0 j = w 0 j := by
            unfold adjustDiag
            rw [if_neg (fun hc : 0 = j ∧ 0 < n ∧ w 0 j = ⊤ => hj0 hc.1.symm)]
          rw [h1, h2, hw0, top_add, zero_add, min_self]
          exact min_eq_left le_top
      · have h2 : adjustDiag w n i 0 = w i 0 := by
          unfold adjustDiag
          rw [if_neg (fun hc : i = 0 ∧ i < n ∧ w i 0 = ⊤ => hi0 hc.1)]
        by_cases hj0 : j = 0
        · subst hj0
          have h1 : adjustDiag w n 0 0 = 0 := by
            unfold adjustDiag
            rw [if_pos ⟨rfl, hn, hw0⟩]
          rw [h1, h2, hw0, add_top, add_zero, min_self]
          exact min_eq_left le_top
        · have h3 : adjustDiag w n 0 j = w 0 j := by
            unfold adjustDiag
            rw [if_neg (fun hc : 0 = j ∧ 0 < n ∧ w 0 j = ⊤ => hj0 hc.1.symm)]
          rw [h2, h3]
    · have h2 : adjustDiag w n i 0 = w i 0 := by
        unfold adjustDiag
        rw [if_neg (fun hc : i = 0 ∧ i < n ∧ w i 0 = ⊤ => hw0 (hc.1 ▸ hc.2.2))]
      have h3 : adjustDiag w n 0 j = w 0 j := by
        unfold adjustDiag
        rw [if_neg (fun hc : 0 = j ∧ 0 < n ∧ w 0 j = ⊤ => hw0 (hc.1.symm ▸ hc.2.2))]
      rw [h2, h3]

theorem dmat_eq_sdmat {w : ℕ → ℕ → Wt} {n : ℕ} :
    ∀ k, 1 ≤ k → k ≤ n → ∀ i j, i < n → j < n →
      dmat w k i j = sdmat (adjustDiag w n) k i j := by
  intro k h1 hn
  induction k, h1 using Nat.le_induction with
  | base => exact fun i j hi hj => dmat_one_eq_sdmat_one hi hj
  | succ k hk1 ih =>
    intro i j hi hj
    have hkn : k < n := hn
    have ihk := ih (Nat.le_of_succ_le hn)
    show (if i = j ∧ dmat w k i j = ⊤ then 0
        else min (dmat w k i j) (dmat w k i k + dmat w k k j)) =
      min (sdmat (adjustDiag w n) k i j)
        (sdmat (adjustDiag w n) k i k + sdmat (adjustDiag w n) k k j)
    rw [if_neg (fun hc : i = j ∧ dmat w k i j = ⊤ =>
      dmat_diag_ne_top w k hk1 j (hc.1 ▸ hc.2))]
    rw [ihk i j hi hj, ihk i k hi hkn, ihk k j hkn hj]

theorem sdmat_through {n : ℕ} (w : ℕ → ℕ → Wt) {k : ℕ} (hkn : k < n)
    (IH : ∀ i j, i < n → j < n → ∀ l, (∀ v ∈ l, v < k) →
      sdmat w k i j ≤ walkCost w i l j)
    {j : ℕ} (hj : j < n) :
    ∀ (c : ℕ) (l : List ℕ), l.count k = c → (∀ v ∈ l, v < k + 1) →
      sdmat w k k j ≤ walkCost w k l j := by
  intro c
  induction c with
  | zero =>
    intro l hc hl
    refine IH k j hkn hj l fun v hv => ?_
    have h1 := hl v hv
    have h2 : v ≠ k := fun hvk => (List.count_eq_zero.mp hc) (hvk ▸ hv)
    omega
  | succ c ihc =>
    intro l hc hl
    have hkl : k ∈ l := by
      by_contra hknot
      rw [List.count_eq_zero.mpr hknot] at hc
      cases hc
    obtain ⟨l3, l4, rfl, hnotin3⟩ := List.eq_append_cons_of_mem hkl
    rw [walkCost_append]
    have hcount : l4.count k = c := by
      rw [List.count_append, List.count_cons_self,
        List.count_eq_zero.mpr hnotin3] at hc
      omega
    have hb := ihc l4 hcount fun v hv =>
      hl v (List.mem_append.mpr (Or.inr (List.mem_cons_of_mem k hv)))
    exact hb.trans le_add_self

theorem sdmat_LB {n : ℕ} (w : ℕ → ℕ → Wt) :
    ∀ k, k ≤ n → ∀ i j, i < n → j < n → ∀ l, (∀ v ∈ l, v < k) →
      sdmat w k i j ≤ walkCost w i l j := by
  intro k
  induction k with
  | zero =>
    intro _ i j _ _ l hl
    match l with
    | [] => exact le_refl _
    | a :: l => exact absurd (hl a (List.mem_cons_self a l)) (Nat.not_lt_zero a)
  | succ k ih =>
    intro hk i j hi hj l hl
    have hkn : k < n := hk
    have ihk := ih (Nat.le_of_succ_le hk)
    by_cases hkl : k ∈ l
    · obtain ⟨l1, l2, rfl, hnotin⟩ := List.eq_append_cons_of_mem hkl
      rw [walkCost_append]
      have hb1 : sdmat w k i k ≤ walkCost w i l1 k := by
        refine ihk i k hi hkn l1 fun v hv => ?_
        have h1 := hl v (List.mem_append.mpr (Or.inl hv))
        have h2 : v ≠ k := fun hc => hnotin (hc ▸ hv)
        omega
      have hb2 : sdmat w k k j ≤ walkCost w k l2 j :=
        sdmat_through w hkn ihk hj (l2.count k) l2 rfl fun v hv =>
          hl v (List.mem_append.mpr (Or.inr (List.mem_cons_of_mem k hv)))
      exact (min_le_right _ _).trans (add_le_add hb1 hb2)
    · have hlk : ∀ v ∈ l, v < k := fun v hv => by
        have h1 := hl v hv
        have h2 : v ≠ k := fun hc => hkl (hc ▸ hv)
        omega
      exact (min_le_left _ _).trans (ihk i j hi hj l hlk)

theorem sdmat_Att {n : ℕ} (w : ℕ → ℕ → Wt) :
    ∀ k, k ≤ n → ∀ i j, i < n → j < n →
      sdmat w k i j = ⊤ ∨
      ∃ l, (∀ v ∈ l, v < n) ∧ walkCost w i l j = sdmat w k i j := by
  intro k
  induction k with
  | zero =>
    intro _ i j _ _
    exact Or.inr ⟨[], by simp, rfl⟩
  | succ k ih =>
    intro hk i j hi hj
    have hkn : k < n := hk
    have ihk := ih (Nat.le_of_succ_le hk)
    show min (sdmat w k i j) (sdmat w k i k + sdmat w k k j) = ⊤ ∨
      ∃ l, _ ∧ walkCost w i l j = min (sdmat w k i j) (sdmat w k i k + sdmat w k k j)
    rcases le_total (sdmat w k i j) (sdmat w k i k + sdmat w k k j) with hAB | hBA
    · rw [min_eq_left hAB]
      exact ihk i j hi hj
    · rw [min_eq_right hBA]
      by_cases hBtop : sdmat w k i k + sdmat w k k j = ⊤
      · exact Or.inl hBtop
      · have h1 : sdmat w k i k ≠ ⊤ := fun hc => hBtop (by rw [hc, top_add])
        have h2 : sdmat w k k j ≠ ⊤ := fun hc => hBtop (by rw [hc, add_top])
        rcases ihk i k hi hkn with hc1 | ⟨l1, hl1, hw1⟩
        · exact absurd hc1 h1
        · rcases ihk k j hkn hj with hc2 | ⟨l2, hl2, hw2⟩
          · exact absurd hc2 h2
          · refine Or.inr ⟨l1 ++ k :: l2, ?_, ?_⟩
            · intro v hv
              rcases List.mem_append.mp hv with hv1 | hv2
              · exact hl1 v hv1
              · rcases List.mem_cons.mp hv2 with rfl | hv3
                · exact hkn
                · exact hl2 v hv3
            · rw [walkCost_append, hw1, hw2]

/-! The initial matrix built by `add_list_to_matrix` holds exactly the
adjacency weights: cell `(i, j)` is the weight stored in node `i`'s edge list
for the `j`:th node's name, `⊤` when there is no such edge. -/

/-- Weight of the edge towards `y` in an edge chain, `⊤` if absent. -/
def lookupW : List (α × ℕ) → α → Wt
  | [], _ => ⊤
  | (d, w) :: tl, y => if y = d then (w : Wt) else lookupW tl y

/-- Weight of the edge `x → y` read off the adjacency list (through the first
node named `x`), `⊤` if absent. -/
def edgeWt (g : Graph α) (x y : α) : Wt :=
  match get_node g x with
  | .node nd => lookupW nd.edges y
  | .sentinel _ => ⊤

theorem find_iff_lookupW (l : List (α × ℕ)) (y : α) :
    EdgeL.find l y = true ↔ lookupW l y ≠ ⊤ := by
  induction l with
  | nil => simp [EdgeL.find, lookupW]
  | cons e tl ih =>
    obtain ⟨d, w⟩ := e
    by_cases hy : y = d
    · simp [EdgeL.find, lookupW, hy, WithTop.coe_ne_top]
    · simpa [EdgeL.find, lookupW, hy] using ih

theorem find_edge_iff_edgeWt (g : Graph α) (x y : α) :
    find_edge g x y = true ↔ edgeWt g x y ≠ ⊤ := by
  induction g with
  | nil => simp [find_edge, edgeWt, get_node]
  | cons n tl ih =>
    by_cases hx : x = n.name
    · simp [find_edge, edgeWt, get_node, hx, find_iff_lookupW]
    · simpa [find_edge, edgeWt, get_node, hx] using ih

theorem find_dst_index_get {g : Graph α} (hnd : (list_nodes g).Nodup) :
    ∀ (j : ℕ) (hj : j < g.length), find_dst_index g ((g.get ⟨j, hj⟩).name) = j := by
  induction g with
  | nil => intro j hj; exact absurd hj (Nat.not_lt_zero j)
  | cons n tl ih =>
    rw [list_nodes_eq_map, List.map_cons, List.nodup_cons] at hnd
    intro j hj
    match j with
    | 0 => simp [find_dst_index]
    | j + 1 =>
      have hjt : j < tl.length := Nat.lt_of_succ_lt_succ hj
      have hmem : (tl.get ⟨j, hjt⟩).name ∈ tl.map Node.name :=
        List.mem_map_of_mem Node.name (List.get_mem tl j hjt)
      have hne : ¬((tl.get ⟨j, hjt⟩).name = n.name) :=
        fun hc => hnd.1 (hc ▸ hmem)
      show find_dst_index (n :: tl) ((tl.get ⟨j, hjt⟩).name) = j + 1
      rw [find_dst_index, if_neg hne,
        ih (by rw [list_nodes_eq_map]; exact hnd.2) j hjt]

theorem find_dst_index_lt {g : Graph α} {dst : α} (h : find_node g dst = true) :
    find_dst_index g dst < g.length := by
  induction g with
  | nil => simp [find_node] at h
  | cons n tl ih =>
    by_cases hx : dst = n.name
    · simp [find_dst_index, hx]
    · simp only [find_node, if_neg hx] at h
      simp only [find_dst_index, if_neg hx, List.length_cons]
      exact Nat.succ_lt_succ (ih h)

theorem getElem?_find_dst_index {g : Graph α} {dst : α} (h : find_node g dst = true) :
    ∃ nd, g[find_dst_index g dst]? = some nd ∧ nd.name = dst := by
  induction g with
  | nil => simp [find_node] at h
  | cons n tl ih =>
    by_cases hx : dst = n.name
    · refine ⟨n, ?_, hx.symm⟩
      simp [find_dst_index, hx]
    · simp only [find_node, if_neg hx] at h
      obtain ⟨nd, h1, h2⟩ := ih h
      refine ⟨nd, ?_, h2⟩
      rw [find_dst_index, if_neg hx, List.getElem?_cons_succ]
      exact h1

theorem name_of_find_dst_index {g : Graph α} {dst : α} {j : ℕ} (hj : j < g.length)
    (h : find_node g dst = true) (hcol : find_dst_index g dst = j) :
    (g.get ⟨j, hj⟩).name = dst := by
  obtain ⟨nd, h1, h2⟩ := getElem?_find_dst_index h
  rw [hcol, List.getElem?_eq_getElem hj] at h1
  rw [List.get_eq_getElem, Option.some.inj h1]
  exact h2

theorem get_node_of_get {g : Graph α} (hnd : (list_nodes g).Nodup) :
    ∀ (j : ℕ) (hj : j < g.length),
      get_node g ((g.get ⟨j, hj⟩).name) = Lookup.node (g.get ⟨j, hj⟩) := by
  induction g with
  | nil => intro j hj; exact absurd hj (Nat.not_lt_zero j)
  | cons n tl ih =>
    rw [list_nodes_eq_map, List.map_cons, List.nodup_cons] at hnd
    intro j hj
    match j with
    | 0 => simp [get_node]
    | j + 1 =>
      have hjt : j < tl.length := Nat.lt_of_succ_lt_succ hj
      have hmem : (tl.get ⟨j, hjt⟩).name ∈ tl.map Node.name :=
        List.mem_map_of_mem Node.name (List.get_mem tl j hjt)
      have hne : ¬((tl.get ⟨j, hjt⟩).name = n.name) :=
        fun hc => hnd.1 (hc ▸ hmem)
      show get_node (n :: tl) ((tl.get ⟨j, hjt⟩).name) = _
      rw [get_node, if_neg hne]
      exact ih (by rw [list_nodes_eq_map]; exact hnd.2) j hjt

/-- Net effect at column `j` of `fillEdges`' writes along an edge list: the
last write wins, the previous content is the default. -/
def rowVal (g : Graph α) : List (α × ℕ) → ℕ → Wt → Wt
  | [], _, dflt => dflt
  | (dst, w) :: tl, j, dflt =>
      rowVal g tl j (if find_dst_index g dst = j then (w : Wt) else dflt)

theorem getCell_fillEdges (g : Graph α) {n : ℕ} (i : ℕ) (hi : i < n) :
    ∀ (l : List (α × ℕ)) (m : Mat), Shaped m n →
      (∀ j2 < n, getCell (fillEdges g i l m) i j2 = rowVal g l j2 (getCell m i j2)) ∧
      (∀ i2 j2, i2 ≠ i → getCell (fillEdges g i l m) i2 j2 = getCell m i2 j2) := by
  intro l
  induction l with
  | nil => intro m _; exact ⟨fun _ _ => rfl, fun _ _ _ => rfl⟩
  | cons e tl ih =>
    intro m hs
    obtain ⟨dst, w⟩ := e
    obtain ⟨c1, c2⟩ := ih (setCell m i (find_dst_index g dst) (w : ℕ∞)) (hs.setCell _ _ _)
    have hstep : fillEdges g i ((dst, w) :: tl) m =
        fillEdges g i tl (setCell m i (find_dst_index g dst) (w : ℕ∞)) := rfl
    constructor
    · intro j2 hj2
      rw [hstep, c1 j2 hj2, rowVal]
      congr 1
      rw [getCell_setCell]
      by_cases hcol : find_dst_index g dst = j2
      · rw [if_pos ⟨rfl, hcol.symm, by rw [hs.1]; exact hi,
          by rw [hs.2 i hi, hcol]; exact hj2⟩, if_pos hcol]
      · rw [if_neg (by tauto), if_neg hcol]
    · intro i2 j2 hne
      rw [hstep, c2 i2 j2 hne, getCell_setCell,
        if_neg (fun hc : i2 = i ∧ _ => hne hc.1)]

theorem getCell_fillAll (g : Graph α) {n : ℕ} :
    ∀ (gs : Graph α) (i0 : ℕ) (m : Mat), Shaped m n → i0 + gs.length ≤ n →
      (∀ (t : ℕ) (ht : t < gs.length), ∀ j2 < n,
        getCell (fillAll g gs i0 m) (i0 + t) j2 =
          rowVal g (gs.get ⟨t, ht⟩).edges j2 (getCell m (i0 + t) j2)) ∧
      (∀ i2, i2 < i0 → ∀ j2, getCell (fillAll g gs i0 m) i2 j2 = getCell m i2 j2) := by
  intro gs
  induction gs with
  | nil =>
    intro i0 m _ _
    exact ⟨fun t ht => absurd ht (Nat.not_lt_zero t), fun _ _ _ => rfl⟩
  | cons nd tl ih =>
    intro i0 m hs hlen
    simp only [List.length_cons] at hlen
    have hi0 : i0 < n := by omega
    obtain ⟨f1, f2⟩ := getCell_fillEdges g i0 hi0 nd.edges m hs
    obtain ⟨c1, c2⟩ := ih (i0 + 1) (fillEdges g i0 nd.edges m)
      (shaped_fillEdges g i0 _ _ hs) (by omega)
    have hstep : fillAll g (nd :: tl) i0 m =
        fillAll g tl (i0 + 1) (fillEdges g i0 nd.edges m) := rfl
    constructor
    · intro t ht j2 hj2
      match t with
      | 0 =>
        show getCell (fillAll g tl (i0 + 1) (fillEdges g i0 nd.edges m)) i0 j2 =
          rowVal g nd.edges j2 (getCell m i0 j2)
        exact (c2 i0 (Nat.lt_succ_self i0) j2).trans (f1 j2 hj2)
      | t + 1 =>
        have ht2 : t < tl.length := Nat.lt_of_succ_lt_succ ht
        show getCell (fillAll g tl (i0 + 1) (fillEdges g i0 nd.edges m)) (i0 + (t + 1)) j2 =
          rowVal g (tl.get ⟨t, ht2⟩).edges j2 (getCell m (i0 + (t + 1)) j2)
        have harith : i0 + (t + 1) = (i0 + 1) + t := by omega
        rw [harith, c1 t ht2 j2 hj2, f2 ((i0 + 1) + t) j2 (by omega)]
    · intro i2 hi2 j2
      show getCell (fillAll g tl (i0 + 1) (fillEdges g i0 nd.edges m)) i2 j2 = getCell m i2 j2
      rw [c2 i2 (by omega) j2, f2 i2 j2 (by omega)]

theorem rowVal_of_no_match (g : Graph α) {j : ℕ} :
    ∀ (l : List (α × ℕ)), (∀ e ∈ l, find_dst_index g e.1 ≠ j) →
      ∀ d, rowVal g l j d = d := by
  intro l
  induction l with
  | nil => intro _ d; rfl
  | cons e tl ih =>
    intro h d
    obtain ⟨dst, w⟩ := e
    rw [rowVal, if_neg (h (dst, w) (List.mem_cons_self _ tl)), ih
      fun e2 he2 => h e2 (List.mem_cons_of_mem _ he2)]

theorem rowVal_eq_lookupW (g : Graph α) (hnd : (list_nodes g).Nodup) {j : ℕ}
    (hj : j < g.length) :
    ∀ (l : List (α × ℕ)), (∀ e ∈ l, find_node g e.1 = true) →
      (l.map Prod.fst).Nodup →
      rowVal g l j ⊤ = lookupW l ((g.get ⟨j, hj⟩).name) := by
  intro l
  induction l with
  | nil => intro _ _; rfl
  | cons e tl ih =>
    intro hmem hd
    obtain ⟨dst, w⟩ := e
    rw [List.map_cons, List.nodup_cons] at hd
    have hdstm : find_node g dst = true := hmem (dst, w) (List.mem_cons_self _ tl)
    by_cases heq : dst = (g.get ⟨j, hj⟩).name
    · have hcol : find_dst_index g dst = j := by
        rw [heq]
        exact find_dst_index_get hnd j hj
      rw [rowVal, if_pos hcol, lookupW, if_pos heq.symm]
      refine rowVal_of_no_match g tl (fun e2 he2 hcol2 => ?_) (w : Wt)
      have hm2 : find_node g e2.1 = true := hmem e2 (List.mem_cons_of_mem _ he2)
      have hname : (g.get ⟨j, hj⟩).name = e2.1 :=
        name_of_find_dst_index hj hm2 hcol2
      have hmm : e2.1 ∈ tl.map Prod.fst := List.mem_map_of_mem Prod.fst he2
      exact hd.1 (by rw [heq.trans hname]; exact hmm)
    · have hcol : find_dst_index g dst ≠ j := by
        intro hc
        exact heq (name_of_find_dst_index hj hdstm hc).symm
      rw [rowVal, if_neg hcol, lookupW, if_neg fun hc => heq hc.symm]
      exact ih (fun e2 he2 => hmem e2 (List.mem_cons_of_mem _ he2)) hd.2

theorem initW_eq (g : Graph α) (hnd : (list_nodes g).Nodup) (hcl : Closed g)
    (hwfe : WFE g) {i j : ℕ} (hi : i < g.length) (hj : j < g.length) :
    getCell (add_list_to_matrix g (infMatrix (node_cardinality g))) i j =
      edgeWt g ((g.get ⟨i, hi⟩).name) ((g.get ⟨j, hj⟩).name) := by
  have hcard : node_cardinality g = g.length := node_cardinality_eq_length g
  have hrow := (getCell_fillAll g g 0 (infMatrix (node_cardinality g))
    (Shaped.infMatrix _) (by omega)).1 i (by omega) j (by omega)
  rw [Nat.zero_add] at hrow
  rw [add_list_to_matrix, hrow, getCell_infMatrix]
  have hedges : ∀ e ∈ (g.get ⟨i, hi⟩).edges, find_node g e.1 = true :=
    fun e he => hcl (g.get ⟨i, hi⟩) (List.get_mem g i hi) e he
  have hednd : ((g.get ⟨i, hi⟩).edges.map Prod.fst).Nodup :=
    (hwfe (g.get ⟨i, hi⟩) (List.get_mem g i hi)).imp fun h => ne_of_lt h
  rw [rowVal_eq_lookupW g hnd hj _ hedges hednd, edgeWt,
    get_node_of_get hnd i hi]

/-- Deleting zero-cost stutter steps: for `i ≠ j`, every walk under the
diagonal-adjusted weights is matched (or beaten) by a walk under the original
weights. -/
theorem walk_descend {w : ℕ → ℕ → Wt} {n : ℕ} :
    ∀ (l : List ℕ) (i j : ℕ), i ≠ j →
      ∃ l2, walkCost w i l2 j ≤ walkCost (adjustDiag w n) i l j := by
  intro l
  induction l with
  | nil =>
    intro i j hij
    refine ⟨[], ?_⟩
    show w i j ≤ adjustDiag w n i j
    unfold adjustDiag
    rw [if_neg (fun hc : i = j ∧ _ => hij hc.1)]
  | cons v l ih =>
    intro i j hij
    show ∃ l2, walkCost w i l2 j ≤ adjustDiag w n i v + walkCost (adjustDiag w n) v l j
    by_cases hvj : v = j
    · subst hvj
      refine ⟨[], ?_⟩
      have hadj : adjustDiag w n i v = w i v := by
        unfold adjustDiag
        rw [if_neg (fun hc : i = v ∧ _ => hij hc.1)]
      rw [hadj]
      exact le_self_add
    · by_cases hvi : v = i
      · subst hvi
        by_cases hw : w v v = ⊤
        · by_cases hin : v < n
          · obtain ⟨l2, hl2⟩ := ih v j hij
            refine ⟨l2, ?_⟩
            have hadj : adjustDiag w n v v = 0 := by
              unfold adjustDiag
              rw [if_pos ⟨rfl, hin, hw⟩]
            rw [hadj, zero_add]
            exact hl2
          · refine ⟨[], ?_⟩
            have hadj : adjustDiag w n v v = ⊤ := by
              unfold adjustDiag
              rw [if_neg (fun hc : v = v ∧ v < n ∧ _ => hin hc.2.1)]
              exact hw
            rw [hadj, top_add]
            exact le_top
        · obtain ⟨l2, hl2⟩ := ih v j hij
          refine ⟨v :: l2, ?_⟩
          have hadj : adjustDiag w n v v = w v v := by
            unfold adjustDiag
            rw [if_neg (fun hc : v = v ∧ v < n ∧ w v v = ⊤ => hw hc.2.2)]
          rw [hadj]
          exact add_le_add_left hl2 _
      · obtain ⟨l2, hl2⟩ := ih v j hvj
        refine ⟨v :: l2, ?_⟩
        have hadj : adjustDiag w n i v = w i v := by
          unfold adjustDiag
          rw [if_neg (fun hc : i = v ∧ _ => hvi hc.1.symm)]
        show w i v + walkCost w v l2 j ≤ adjustDiag w n i v + _
        rw [hadj]
        exact add_le_add_left hl2 _

/-- The weight matrix `floyd` starts from (`add_list_to_matrix` applied to the
`inf` matrix), read as a function. -/
def initW (g : Graph α) : ℕ → ℕ → Wt :=
  fun i j => getCell (add_list_to_matrix g (infMatrix (node_cardinality g))) i j

theorem adjustDiag_le (w : ℕ → ℕ → Wt) (n : ℕ) : ∀ a b, adjustDiag w n a b ≤ w a b := by
  intro a b
  unfold adjustDiag
  split
  · exact zero_le _
  · exact le_refl _

omit [LinearOrder α] in
theorem node_cardinality_pos {g : Graph α} (hne : g ≠ []) : 1 ≤ node_cardinality g := by
  rw [node_cardinality_eq_length]
  match g with
  | [] => exact absurd rfl hne
  | _ :: _ => simp

theorem adjustDiag_initW_top (g : Graph α) :
    ∀ a b, node_cardinality g ≤ b →
      adjustDiag (initW g) (node_cardinality g) a b = ⊤ := by
  intro a b hb
  have hw : initW g a b = ⊤ :=
    getCell_oob (shaped_init_matrix g) (Or.inr hb)
  unfold adjustDiag
  rw [if_neg (fun hc : a = b ∧ a < node_cardinality g ∧ _ => by omega)]
  exact hw

theorem floyd_LB (g : Graph α) (hne : g ≠ []) {i j : ℕ}
    (hi : i < node_cardinality g) (hj : j < node_cardinality g) (l : List ℕ) :
    getCell (floyd g) i j ≤
      walkCost (adjustDiag (initW g) (node_cardinality g)) i l j := by
  by_cases hbig : ∃ v ∈ l, node_cardinality g ≤ v
  · rw [walkCost_top (adjustDiag_initW_top g) l i j hbig]
    exact le_top
  · push_neg at hbig
    rw [getCell_floyd g hi hj]
    show dmat (initW g) (node_cardinality g) i j ≤ _
    rw [dmat_eq_sdmat (node_cardinality g) (node_cardinality_pos hne) le_rfl i j hi hj]
    exact sdmat_LB _ (node_cardinality g) le_rfl i j hi hj l hbig

theorem floyd_Att (g : Graph α) (hne : g ≠ []) {i j : ℕ}
    (hi : i < node_cardinality g) (hj : j < node_cardinality g) :
    getCell (floyd g) i j = ⊤ ∨
      ∃ l, (∀ v ∈ l, v < node_cardinality g) ∧
        walkCost (adjustDiag (initW g) (node_cardinality g)) i l j =
          getCell (floyd g) i j := by
  rw [getCell_floyd g hi hj]
  have hrw : dmat (fun a b =>
      getCell (add_list_to_matrix g (infMatrix (node_cardinality g))) a b)
      (node_cardinality g) i j = dmat (initW g) (node_cardinality g) i j := rfl
  rw [hrw, dmat_eq_sdmat (node_cardinality g) (node_cardinality_pos hne) le_rfl i j hi hj]
  exact sdmat_Att _ (node_cardinality g) le_rfl i j hi hj

end Floyd

open Floyd in
/-- **C3** counterexample.  `gx` has the self-loop `a→a(5)` and the two-cycle
`a→b(1)`, `b→a(1)`.  Floyd's diagonal cell for `a` ends at `2` (the cheap
cycle), not the original self-loop weight `5`: `min` keeps eroding the
diagonal after the first pass, so "the original self-loop weight when it
does [have one]" is false. -/
theorem c3_counterexample :
    find_edge gx 'a' 'a' = true ∧
    Floyd.initW gx 0 0 = ((5 : ℕ) : Wt) ∧
    list_nodes gx = ['a', 'b'] ∧
    floyd gx = [[2, 1], [1, 0]] ∧
    getCell (floyd gx) 0 0 ≠ ((5 : ℕ) : Wt) := by
  decide

/-- **C3** (amended).  For every well-formed, edge-closed, non-empty graph,
`floyd` returns the `N × N` matrix in which, with `w` the adjacency-weight
matrix the code builds (cell `(i,j)` = weight of the edge from node `i` to
node `j`, `⊤` if absent — conjunct 2) and `w'` the same weights with each
missing self-loop's `⊤` diagonal replaced by `0`:
cell `(i,j)` is a lower bound of every `w'`-walk cost from `i` to `j`
(conjunct 3) and is attained by such a walk unless it is `⊤` (conjunct 4) —
i.e. it is the shortest `w'`-walk cost; off the diagonal the same holds with
the original weights `w`, so cell `(i,j)` is the shortest path cost from
node `i` to node `j` (conjunct 5); the diagonal cell `(i,i)` is `0` when
node `i` has no self-loop and at most — not exactly — the original
self-loop weight when it does (conjunct 6); a cell is `⊤` exactly when `j`
is unreachable from `i` (every adjusted walk costs `⊤`, conjunct 7); and on
the two-node scenario graph `gf` (`a→b(5)`) the result is
`[[0, 5], [⊤, 0]]` (conjunct 8). -/
theorem c3_floyd_shortest_walks {α : Type} [LinearOrder α] (g : Graph α)
    (hwf : WF g) (hwfe : WFE g) (hcl : Closed g) (hne : g ≠ []) :
    Floyd.Shaped (floyd g) (node_cardinality g) ∧
    (∀ i j (hi : i < g.length) (hj : j < g.length),
      Floyd.initW g i j =
        Floyd.edgeWt g ((g.get ⟨i, hi⟩).name) ((g.get ⟨j, hj⟩).name)) ∧
    (∀ i j, i < node_cardinality g → j < node_cardinality g → ∀ l,
      getCell (floyd g) i j ≤
        Floyd.walkCost (Floyd.adjustDiag (Floyd.initW g) (node_cardinality g)) i l j) ∧
    (∀ i j, i < node_cardinality g → j < node_cardinality g →
      getCell (floyd g) i j = ⊤ ∨
        ∃ l, (∀ v ∈ l, v < node_cardinality g) ∧
          Floyd.walkCost (Floyd.adjustDiag (Floyd.initW g) (node_cardinality g)) i l j =
            getCell (floyd g) i j) ∧
    (∀ i j, i < node_cardinality g → j < node_cardinality g → i ≠ j →
      (∀ l, getCell (floyd g) i j ≤ Floyd.walkCost (Floyd.initW g) i l j) ∧
      (getCell (floyd g) i j = ⊤ ∨
        ∃ l, Floyd.walkCost (Floyd.initW g) i l j = getCell (floyd g) i j)) ∧
    (∀ i (hi : i < g.length),
      (find_edge g ((g.get ⟨i, hi⟩).name) ((g.get ⟨i, hi⟩).name) = false →
        getCell (floyd g) i i = 0) ∧
      (find_edge g ((g.get ⟨i, hi⟩).name) ((g.get ⟨i, hi⟩).name) = true →
        getCell (floyd g) i i ≤ Floyd.initW g i i ∧ Floyd.initW g i i ≠ ⊤)) ∧
    (∀ i j, i < node_cardinality g → j < node_cardinality g →
      (getCell (floyd g) i j = ⊤ ↔
        ∀ l, Floyd.walkCost (Floyd.adjustDiag (Floyd.initW g) (node_cardinality g)) i l j = ⊤)) ∧
    floyd gf = [[0, 5], [⊤, 0]] := by
  have hnodup : (list_nodes g).Nodup := hwf.imp fun h => ne_of_lt h
  have hcard : node_cardinality g = g.length := node_cardinality_eq_length g
  have htie : ∀ i j (hi : i < g.length) (hj : j < g.length),
      Floyd.initW g i j =
        Floyd.edgeWt g ((g.get ⟨i, hi⟩).name) ((g.get ⟨j, hj⟩).name) :=
    fun i j hi hj => Floyd.initW_eq g hnodup hcl hwfe hi hj
  have hLB := fun {i j} (hi : i < node_cardinality g) (hj : j < node_cardinality g) =>
    Floyd.floyd_LB g hne hi hj
  have hAtt := fun {i j} (hi : i < node_cardinality g) (hj : j < node_cardinality g) =>
    Floyd.floyd_Att g hne hi hj
  have hLBreal : ∀ i j, i < node_cardinality g → j < node_cardinality g →
      ∀ l, getCell (floyd g) i j ≤ Floyd.walkCost (Floyd.initW g) i l j :=
    fun i j hi hj l => (hLB hi hj l).trans
      (Floyd.walkCost_mono (Floyd.adjustDiag_le _ _) l i j)
  refine ⟨Floyd.shaped_floyd g, htie, fun i j hi hj => hLB hi hj,
    fun i j hi hj => hAtt hi hj, ?_, ?_, ?_, by decide⟩
  · -- off-diagonal, original weights
    intro i j hi hj hij
    refine ⟨hLBreal i j hi hj, ?_⟩
    rcases hAtt hi hj with htop | ⟨l, _, hcost⟩
    · exact Or.inl htop
    · obtain ⟨l2, hle⟩ := Floyd.walk_descend (n := node_cardinality g) l i j hij
      refine Or.inr ⟨l2, le_antisymm (hcost ▸ hle) (hLBreal i j hi hj l2)⟩
  · -- diagonal
    intro i hi
    have hin : i < node_cardinality g := by omega
    have hself := htie i i hi hi
    constructor
    · intro hfe
      have hwtop : Floyd.edgeWt g ((g.get ⟨i, hi⟩).name) ((g.get ⟨i, hi⟩).name) = ⊤ := by
        by_contra hc
        rw [(Floyd.find_edge_iff_edgeWt g _ _).mpr hc] at hfe
        cases hfe
      have hadj : Floyd.adjustDiag (Floyd.initW g) (node_cardinality g) i i = 0 := by
        unfold Floyd.adjustDiag
        rw [if_pos ⟨rfl, hin, by rw [hself]; exact hwtop⟩]
      have hb := hLB hin hin []
      rw [show Floyd.walkCost (Floyd.adjustDiag (Floyd.initW g) (node_cardinality g)) i [] i =
        Floyd.adjustDiag (Floyd.initW g) (node_cardinality g) i i from rfl, hadj] at hb
      exact le_antisymm hb (zero_le _)
    · intro hfe
      have hwne : Floyd.initW g i i ≠ ⊤ := by
        rw [hself]
        exact (Floyd.find_edge_iff_edgeWt g _ _).mp hfe
      have hadj : Floyd.adjustDiag (Floyd.initW g) (node_cardinality g) i i =
          Floyd.initW g i i := by
        unfold Floyd.adjustDiag
        rw [if_neg (fun hc : i = i ∧ _ ∧ _ => hwne hc.2.2)]
      have hb := hLB hin hin []
      rw [show Floyd.walkCost (Floyd.adjustDiag (Floyd.initW g) (node_cardinality g)) i [] i =
        Floyd.adjustDiag (Floyd.initW g) (node_cardinality g) i i from rfl, hadj] at hb
      exact ⟨hb, hwne⟩
  · -- ⊤ iff unreachable
    intro i j hi hj
    constructor
    · intro htop l
      have := hLB hi hj l
      rw [htop] at this
      exact top_le_iff.mp this
    · intro hall
      rcases hAtt hi hj with htop | ⟨l, _, hcost⟩
      · exact htop
      · rw [← hcost]
        exact hall l

/-- Witness for C3 (amended) on the scenario graph `gf`: the zero diagonal at
node `a` (no self-loop) and the full scenario matrix. -/
theorem c3_witness :
    (WF gf ∧ WFE gf ∧ Closed gf ∧ gf ≠ []) ∧
    getCell (floyd gf) 0 0 = 0 ∧
    floyd gf = [[0, 5], [⊤, 0]] :=
  ⟨⟨by decide, by decide, by decide, by decide⟩,
   ((c3_floyd_shortest_walks gf (by decide) (by decide) (by decide)
      (by decide)).2.2.2.2.2.1 0 (by decide)).1 (by decide),
   (c3_floyd_shortest_walks gf (by decide) (by decide) (by decide)
      (by decide)).2.2.2.2.2.2.2⟩

end Labb3
